import Mathlib

/-!
# create-sofast-extension: a verification development of `bin.js`

The scaffolder `bin.js` is embedded function by function.  JavaScript strings are
modelled as lists of characters (`Str`).  The two locale-independent library
functions `String.prototype.toUpperCase` / `toLowerCase` are not part of the
program and are carried as parameters (`StringOps`).
-/

namespace Sofast

/-- A JavaScript string, as its list of characters. -/
abbrev Str := List Char

/-- Library string functions used by the program but defined outside it. -/
structure StringOps where
  /-- The value of `s.charAt(0).toUpperCase()` for a string starting with the character. -/
  toUpperCase : Char → Str
  /-- The value of `s.toLowerCase()`. -/
  toLowerCase : Str → Str

/-- ASCII instance of the library string functions. -/
def asciiOps : StringOps where
  toUpperCase := fun c => [c.toUpper]
  toLowerCase := fun s => s.map Char.toLower

/-! ## `isValidPkgName` (lines 44-47) -/

/-- Letter test of the class `[a-z]` under the `i` flag: ASCII letters of either case. -/
def isAsciiLetter (c : Char) : Bool :=
  (97 ≤ c.toNat && c.toNat ≤ 122) || (65 ≤ c.toNat && c.toNat ≤ 90)

/-- Digit test of the class `[0-9]`. -/
def isAsciiDigit (c : Char) : Bool :=
  48 ≤ c.toNat && c.toNat ≤ 57

/-- The class `[a-z0-9-~]` with the `i` flag. -/
def isNameStart (c : Char) : Bool :=
  isAsciiLetter c || isAsciiDigit c || c == '-' || c == '~'

/-- The class `[a-z0-9-._~]` with the `i` flag. -/
def isNameChar (c : Char) : Bool :=
  isAsciiLetter c || isAsciiDigit c || c == '-' || c == '.' || c == '_' || c == '~'

/-- The tail `[a-z0-9-._~]*$` of the pattern: every remaining character is in the class. -/
def matchNameRest : Str → Bool
  | [] => true
  | c :: cs => isNameChar c && matchNameRest cs

/-- The part `[a-z0-9-~][a-z0-9-._~]*$` of the pattern. -/
def matchBareName : Str → Bool
  | [] => false
  | c :: cs => isNameStart c && matchNameRest cs

/-- The part `[a-z0-9-._~]*\/` of the scope group followed by the rest of the pattern:
the star either takes one more character of the class or stops at a `/`. -/
def matchScopeRest : Str → Bool
  | [] => false
  | c :: cs => (isNameChar c && matchScopeRest cs) || (c == '/' && matchBareName cs)

/-- The whole pattern with the optional group `(?:@[a-z0-9-~][a-z0-9-._~]*\/)` taken. -/
def matchScoped : Str → Bool
  | c :: d :: cs => c == '@' && isNameStart d && matchScopeRest cs
  | _ => false

/-- `isValidPkgName(name)`:
`/^(?:@[a-z0-9-~][a-z0-9-._~]*\/)?[a-z0-9-~][a-z0-9-._~]*$/i.test(name)`. -/
def isValidPkgName (name : Str) : Bool :=
  matchScoped name || matchBareName name

/-! ## `toDisplayTitle` (lines 243-249) -/

/-- The class `\s`: the white space and line terminator characters of ECMAScript. -/
def isWhiteSpace (c : Char) : Bool :=
  (9 ≤ c.toNat && c.toNat ≤ 13) || c.toNat == 32 || c.toNat == 160 || c.toNat == 5760 ||
  (8192 ≤ c.toNat && c.toNat ≤ 8202) || c.toNat == 8232 || c.toNat == 8233 ||
  c.toNat == 8239 || c.toNat == 8287 || c.toNat == 12288 || c.toNat == 65279

/-- The class `[\-_.\s]` of the split pattern. -/
def isSplitChar (c : Char) : Bool :=
  c == '-' || c == '_' || c == '.' || isWhiteSpace c

/-- The part `[^/]*\/` of the scope pattern, once one non-slash character has been taken:
the text after the first `/`, or `none` when there is no `/`. -/
def scopeTail : Str → Option Str
  | [] => none
  | c :: cs => if c == '/' then some cs else scopeTail cs

/-- `pkgName.replace(/^@[^/]+\//, '')`. -/
def stripScope : Str → Str
  | c :: d :: cs =>
    if c == '@' && d != '/' then
      match scopeTail cs with
      | some rest => rest
      | none => c :: d :: cs
    else c :: d :: cs
  | s => s

/-- `name.split(/[\-_.\s]+/)`: `cur` is the segment being read, `inRun` tells that the
previous character was part of a separator match.  A separator match closes the current
segment (possibly empty); the end of the input closes the last segment (possibly empty). -/
def splitLoop : Str → Str → Bool → List Str
  | [], cur, _ => [cur]
  | c :: cs, cur, inRun =>
    if isSplitChar c then
      if inRun then splitLoop cs [] true else cur :: splitLoop cs [] true
    else splitLoop cs (cur ++ [c]) false

/-- `name.split(/[\-_.\s]+/)`. -/
def split (name : Str) : List Str := splitLoop name [] false

/-- `s.charAt(0).toUpperCase() + s.slice(1)`. -/
def capitalize (js : StringOps) : Str → Str
  | [] => []
  | c :: cs => js.toUpperCase c ++ cs

/-- `toDisplayTitle(pkgName)`. -/
def toDisplayTitle (js : StringOps) (pkgName : Str) : Str :=
  let name := stripScope pkgName
  let parts := (split name).filter (fun s => !s.isEmpty)
  [' '].intercalate (parts.map (capitalize js))

/-! ## Token substitution (the loop of `copyDir`, lines 269-272) -/

/-- The character U+0060, which selects the text before the match in a replacement string. -/
def graveChar : Char := Char.ofNat 96

/-- The character U+0027, which selects the text after the match in a replacement string. -/
def quoteChar : Char := Char.ofNat 39

/-- The replacement text that `String.prototype.replace` builds from the replacement string
for one match of a pattern without capture groups (ECMAScript `GetSubstitution`):
`$$` gives `$`, `$&` the matched text, `$` followed by U+0060 the text before the match,
`$` followed by U+0027 the text after it; every other character, a `$` included, stands for
itself. -/
def getSubstitution (matched pre post : Str) : Str → Str
  | [] => []
  | [c] => [c]
  | c :: d :: r =>
    if c == '$' then
      if d == '$' then '$' :: getSubstitution matched pre post r
      else if d == '&' then matched ++ getSubstitution matched pre post r
      else if d == graveChar then pre ++ getSubstitution matched pre post r
      else if d == quoteChar then post ++ getSubstitution matched pre post r
      else c :: getSubstitution matched pre post (d :: r)
    else c :: getSubstitution matched pre post (d :: r)

/-- The scan of `content.replace(re, v)` for the global pattern `re` that matches the literal
text `k`: `pre` is the input already passed, `skip` the number of characters of the current
match still to pass.  At a position where `k` starts, the substitution for the match is
emitted and the match is passed over; elsewhere the character is copied. -/
def replaceLoop (k v : Str) : Str → Nat → Str → Str
  | pre, 0, [] => if k.isEmpty then getSubstitution k pre [] v else []
  | _, _ + 1, [] => []
  | pre, skip + 1, c :: cs => replaceLoop k v (pre ++ [c]) skip cs
  | pre, 0, c :: cs =>
    if k.isPrefixOf (c :: cs) then
      getSubstitution k pre ((c :: cs).drop k.length) v ++
        (if k.isEmpty then c :: replaceLoop k v (pre ++ [c]) 0 cs
         else replaceLoop k v (pre ++ [c]) (k.length - 1) cs)
    else c :: replaceLoop k v (pre ++ [c]) 0 cs

/-- One step of the substitution loop:
`content.replace(new RegExp(k.replace(/[.*+?^${}()|[\]\\]/g, '\\$&'), 'g'), String(v))`.
The escaped pattern matches exactly the literal text `k`. -/
def replaceToken (k v content : Str) : Str :=
  replaceLoop k v [] 0 content

/-- The loop `for (const [k, v] of Object.entries(replacements)) content = content.replace(..)`. -/
def substitute (replacements : List (Str × Str)) (content : Str) : Str :=
  replacements.foldl (fun content kv => replaceToken kv.1 kv.2 content) content

/-- The resolved choices (the argument of `buildPackageJSON`, and the source of `replacements`). -/
structure Configuration where
  name : Str
  ts : Bool
  framework : Str
  uiEntry : Str
  tailwind : Bool
  title : Str
deriving DecidableEq, Repr

/-- The object `replacements` of `main` (lines 167-176), as its entries in insertion order. -/
def replacements (c : Configuration) : List (Str × Str) :=
  [ ("__EXT__".toList, if c.ts then "ts".toList else "js".toList),
    ("__PKG_NAME__".toList, c.name),
    ("__DISPLAY_NAME__".toList, c.title),
    ("__UI_ENTRY__".toList, c.uiEntry),
    ("__FRAMEWORK__".toList, c.framework),
    ("__TAILWIND_IMPORT__".toList,
      if c.tailwind then "import tailwindcss from \x27@tailwindcss/vite\x27;".toList else []),
    ("__TAILWIND_PLUGIN_TRAILING__".toList, if c.tailwind then ", tailwindcss()".toList else []),
    ("__TAILWIND_PLUGIN_SOLO__".toList, if c.tailwind then "tailwindcss()".toList else []) ]

/-! ## `buildPackageJSON` (lines 198-241) -/

/-- A JavaScript object with string values, as its entries in insertion order. -/
abbrev Obj := List (String × String)

/-- Assignment `target[key] = value`: an existing key keeps its place, a new key is appended. -/
def Obj.set : Obj → String → String → Obj
  | [], key, value => [(key, value)]
  | (k, v) :: rest, key, value =>
    if k == key then (k, value) :: rest else (k, v) :: Obj.set rest key value

/-- `Object.assign(target, source)`. -/
def Obj.assign (target source : Obj) : Obj :=
  source.foldl (fun t kv => Obj.set t kv.1 kv.2) target

/-- The keys of an object, in order (`Object.keys`). -/
def Obj.keys (o : Obj) : List String := o.map Prod.fst

/-- An entry of the `commands` array. -/
structure Command where
  name : Str
  title : Str
  mode : Str
deriving DecidableEq, Repr

/-- The object returned by `buildPackageJSON`. -/
structure Manifest where
  name : Str
  type : String
  version : String
  «private» : Bool
  scripts : Obj
  commands : List Command
  dependencies : Obj
  devDependencies : Obj
deriving DecidableEq, Repr

/-- The dependencies added by `if (tailwind) Object.assign(pkg.dependencies, ..)`. -/
def tailwindDeps : Obj := [("tailwindcss", "^4.1.10"), ("@tailwindcss/vite", "^4.1.10")]

/-- `buildPackageJSON({ name, ts, framework, uiEntry, tailwind, title })`. -/
def buildPackageJSON (c : Configuration) : Manifest :=
  let pkg : Manifest :=
    { name := c.name
      type := "module"
      version := "0.0.1"
      «private» := true
      scripts :=
        [ ("dev", "vite"),
          ("build", "vite build && (cp package.json dist/package.json || copy package.json dist\\package.json >NUL)"),
          ("preview", "vite preview") ]
      commands :=
        [ { name := "hello".toList
            title := if c.title.isEmpty then "Hello Sofast Extension".toList else c.title
            mode := "view".toList } ]
      dependencies := []
      devDependencies := [("vite", "^7.1.6")] }
  if c.framework == "react".toList then
    let pkg := { pkg with
      dependencies := Obj.assign pkg.dependencies [("react", "^19.1.1"), ("react-dom", "^19.1.1")] }
    let pkg := { pkg with
      devDependencies := Obj.assign pkg.devDependencies [("@vitejs/plugin-react", "^5.0.3")] }
    let pkg := if c.tailwind then
      { pkg with dependencies := Obj.assign pkg.dependencies tailwindDeps } else pkg
    let pkg := if c.ts then
      { pkg with
        devDependencies := Obj.assign pkg.devDependencies
                             [("typescript", "^5.9.2"), ("@types/react", "^19.1.13"),
                              ("@types/react-dom", "^19.1.9")] }
      else pkg
    pkg
  else if c.framework == "vue".toList then
    let pkg := { pkg with dependencies := Obj.assign pkg.dependencies [("vue", "^3.5.12")] }
    let pkg := { pkg with
      devDependencies := Obj.assign pkg.devDependencies [("@vitejs/plugin-vue", "^5.1.4")] }
    let pkg := if c.tailwind then
      { pkg with dependencies := Obj.assign pkg.dependencies tailwindDeps } else pkg
    let pkg := if c.ts then
      { pkg with devDependencies := Obj.assign pkg.devDependencies [("typescript", "^5.9.2")] }
      else pkg
    pkg
  else
    let pkg := if c.tailwind then
      { pkg with dependencies := Obj.assign pkg.dependencies tailwindDeps } else pkg
    let pkg := if c.ts then
      { pkg with devDependencies := Obj.assign pkg.devDependencies [("typescript", "^5.9.2")] }
      else pkg
    pkg

/-! ## `copyDir` (lines 252-280) -/

/-- An absolute path of the filesystem, as its list of segments; `[]` is the root. -/
abbrev Path := List Str

/-- An entry of a template directory, as `readdir(.., { withFileTypes: true })` reports it:
a regular file with its content, a directory with its listing, or an entry that is neither
(`isDirectory()` and `isFile()` both false). -/
inductive Entry where
  | file (name : Str) (content : Str)
  | dir (name : Str) (entries : List Entry)
  | other (name : Str)

/-- A filesystem mutation issued by the program; `copyFile` carries the content of its source
file. -/
inductive Op where
  | mkdir (p : Path)
  | writeFile (p : Path) (content : Str)
  | copyFile (p : Path) (content : Str)
deriving DecidableEq, Repr

/-- `dName.endsWith('.tpl')`. -/
def isTpl (name : Str) : Bool := ".tpl".toList.isSuffixOf name

/-- The destination name: `if (isTpl) dName = dName.slice(0, -4)`. -/
def destName (name : Str) : Str :=
  if isTpl name then name.take (name.length - 4) else name

/-- The segments of a string between its `/` characters; `cur` is the segment being read. -/
def splitSlash : Str → Str → List Str
  | [], cur => [cur]
  | c :: cs, cur => if c == '/' then cur :: splitSlash cs [] else splitSlash cs (cur ++ [c])

/-- One step of the normalisation of `path.join`: an empty segment and `.` are dropped, `..`
removes the last segment (the parent of the root is the root), another segment is appended. -/
def normalizeStep (p : Path) (seg : Str) : Path :=
  if seg.isEmpty || seg == ".".toList then p
  else if seg == "..".toList then p.dropLast
  else p ++ [seg]

/-- `path.join(dest, dName)` for an absolute, normalised `dest` (POSIX): the segments of `dName`
are applied to `dest` one after the other. -/
def joinPath (dest : Path) (dName : Str) : Path :=
  (splitSlash dName []).foldl normalizeStep dest

/-- `path.dirname(d)`; the parent of the root is the root. -/
def dirname (d : Path) : Path := d.dropLast

mutual
/-- The body of the loop of `copyDir` for one entry `it`, with destination directory `dest`. -/
def copyEntry (replacements : List (Str × Str)) (dest : Path) : Entry → List Op
  | .dir name entries =>
    -- `copyDir(s, d, options)` on an existing directory: `mkdir(d)`, then its entries
    Op.mkdir (joinPath dest (destName name)) ::
      copyEntries replacements (joinPath dest (destName name)) entries
  | .file name content =>
    if isTpl name then
      [Op.writeFile (joinPath dest (destName name)) (substitute replacements content)]
    else
      [Op.mkdir (dirname (joinPath dest (destName name))),
       Op.copyFile (joinPath dest (destName name)) content]
  | .other _ => []
/-- The loop `for (const it of entries)` of `copyDir`. -/
def copyEntries (replacements : List (Str × Str)) (dest : Path) : List Entry → List Op
  | [] => []
  | it :: rest => copyEntry replacements dest it ++ copyEntries replacements dest rest
end

/-- `copyDir(src, dest, { replacements })`: `src` is `none` when `stat(src)` fails, and the
listing of the directory otherwise.  The result is the sequence of filesystem mutations that
the call issues, in order; `copyDir` never reads the destination, and a mutation that is
rejected ends the sequence there (`execOps`). -/
def copyDir (replacements : List (Str × Str)) (src : Option (List Entry)) (dest : Path) :
    List Op :=
  match src with
  | none => []
  | some entries => Op.mkdir dest :: copyEntries replacements dest entries

/-- What the filesystem holds at a path: a directory or a regular file with its content. -/
inductive Node where
  | dir
  | file (content : Str)
deriving DecidableEq, Repr

/-- A state of the filesystem: what each absolute path holds, `none` when nothing exists
there.  Symbolic links are not modelled. -/
abbrev FS := Path → Option Node

/-- The errors with which a filesystem mutation of the program is rejected. -/
inductive FsError where
  | EEXIST
  | ENOTDIR
  | EISDIR
  | ENOENT
deriving DecidableEq, Repr

/-- Some path of the list holds a regular file. -/
def anyFile (fs : FS) : List Path → Bool
  | [] => false
  | q :: qs =>
    (match fs q with
      | some (.file _) => true
      | _ => false) || anyFile fs qs

/-- `fsp.mkdir(p, { recursive: true })`: rejected when `p` or one of its ancestors is a regular
file; otherwise `p` and its ancestors are directories afterwards. -/
def execMkdir (fs : FS) (p : Path) : Except FsError FS :=
  match fs p with
  | some (.file _) => .error .EEXIST
  | _ =>
    if anyFile fs p.inits then .error .ENOTDIR
    else .ok (fun q => if q.isPrefixOf p then some .dir else fs q)

/-- `fsp.writeFile(p, content)` and `fsp.copyFile(s, p)` for a source with that content:
rejected when `p` is a directory (the root included) or its parent is not a directory;
otherwise `p` is a regular file with the content afterwards. -/
def execWrite (fs : FS) (p : Path) (content : Str) : Except FsError FS :=
  match fs p with
  | some .dir => .error .EISDIR
  | _ =>
    if p.isEmpty then .error .EISDIR
    else
      match fs p.dropLast with
      | some .dir => .ok (fun q => if q = p then some (.file content) else fs q)
      | some (.file _) => .error .ENOTDIR
      | none => .error .ENOENT

/-- The effect of one mutation on the filesystem, or the error that it throws. -/
def execOp (fs : FS) : Op → Except FsError FS
  | .mkdir p => execMkdir fs p
  | .writeFile p content => execWrite fs p content
  | .copyFile p content => execWrite fs p content

/-- The effect of a sequence of mutations, first to last; the first error ends the sequence,
as the exception leaves `copyDir` and `main`. -/
def execOps : List Op → FS → Except FsError FS
  | [], fs => .ok fs
  | op :: ops, fs =>
    match execOp fs op with
    | .ok fs1 => execOps ops fs1
    | .error e => .error e

/-- The content of the regular file at a path, if the path holds one. -/
def fileAt (fs : FS) (p : Path) : Option Str :=
  match fs p with
  | some (.file content) => some content
  | _ => none

/-! ## `ensureDirEmpty` (lines 49-61) -/

/-- What `stat` and `readdir` report for a path: the path is absent (`stat` fails), it is a
directory with a listing, or `stat` succeeds and `readdir` throws an error with a message. -/
inductive PathState where
  | absent
  | directory (files : List Str)
  | unreadable (message : Str)

/-- `s.includes(sub)`. -/
def includes (s sub : Str) : Bool := s.tails.any (fun t => sub.isPrefixOf t)

/-- `ensureDirEmpty(dir)`: `.ok ()` when the call returns, `.error message` when it throws. -/
def ensureDirEmpty (dir : Str) (st : PathState) : Except Str Unit :=
  let body : Except Str Unit :=
    match st with
    | .absent => .ok ()
    | .directory files =>
      if files.length > 0 then .error ("Target directory not empty: ".toList ++ dir) else .ok ()
    | .unreadable message => .error message
  match body with
  | .ok u => .ok u
  | .error message =>
    -- `catch (e)`: rethrown only when the message includes 'not empty'
    if !message.isEmpty && includes message "not empty".toList then .error message else .ok ()

/-! ## `parseArgs` (lines 21-42) -/

/-- The object `out` of `parseArgs`; `none` stands for `undefined`. -/
structure Args where
  name : Option Str
  ts : Option Bool
  framework : Option Str
  title : Option Str
  tailwind : Option Bool
deriving DecidableEq, Repr

/-- The test `!x` on a value that is `undefined` or a string: `undefined` and the empty
string are falsy. -/
def unset : Option Str → Bool
  | none => true
  | some x => x.isEmpty

/-- The loop of `parseArgs` from index `i` on; the list is `argv.slice(i)`.  A flag that takes
a value reads `argv[++i]`, which is `undefined` past the end of `argv`. -/
def parseLoop (js : StringOps) : List Str → Args → Args
  | [], out => out
  | a :: rest, out =>
    if a == "--ts".toList then parseLoop js rest { out with ts := some true }
    else if a == "--no-ts".toList then parseLoop js rest { out with ts := some false }
    else if a == "--framework".toList || a == "-f".toList then
      match rest with
      | [] => { out with framework := some (js.toLowerCase []) }
      | b :: rest => parseLoop js rest { out with framework := some (js.toLowerCase b) }
    else if a == "--title".toList || a == "-t".toList then
      match rest with
      | [] => { out with title := none }
      | b :: rest => parseLoop js rest { out with title := some b }
    else if a == "--tailwind".toList then parseLoop js rest { out with tailwind := some true }
    else if a == "--no-tailwind".toList then parseLoop js rest { out with tailwind := some false }
    else if a == "--name".toList || a == "-n".toList then
      match rest with
      | [] => { out with name := none }
      | b :: rest => parseLoop js rest { out with name := some b }
    else if !("-".toList.isPrefixOf a) && unset out.name then
      parseLoop js rest { out with name := some a }
    else parseLoop js rest out

/-- `parseArgs(argv)`: the loop starts at index 2. -/
def parseArgs (js : StringOps) (argv : List Str) : Args :=
  parseLoop js (argv.drop 2)
    { name := none, ts := none, framework := none, title := none, tailwind := none }

/-! ## `main` (lines 67-188) -/

/-- The interactive questions of `main`. -/
inductive Prompt where
  | name | ts | framework | title | tailwind
deriving DecidableEq, Repr

/-- The outcome of one call of `prompts`: the user aborts (`onCancel` runs), or an answer. -/
inductive Answer (α : Type) where
  | cancelled
  | value (v : α)
deriving DecidableEq, Repr

/-- What the user answers to each question, if it is asked.  An answer that is `undefined` is
represented by the empty string, from which the program does not distinguish it. -/
structure Answers where
  name : Answer Str
  ts : Answer Bool
  framework : Answer Str
  title : Answer Str
  tailwind : Answer Bool

/-- The list `['react', 'vue', 'empty']` of line 73. -/
def frameworks : List Str := ["react".toList, "vue".toList, "empty".toList]

/-- Lines 82-92: the name is asked for when `!name`; an empty answer gives `sofast-plugin`.
The result is the questions asked so far and the value, or `none` when the user aborts. -/
def askName (args : Args) (ans : Answers) : List Prompt × Option Str :=
  if unset args.name then
    match ans.name with
    | .cancelled => ([Prompt.name], none)
    | .value n => ([Prompt.name], some (if n.isEmpty then "sofast-plugin".toList else n))
  else ([], args.name)

/-- Lines 98-109: `ts` is asked for when it is not a boolean of the command line. -/
def askTs (args : Args) (ans : Answers) (asked : List Prompt) : List Prompt × Option Bool :=
  match args.ts with
  | some b => (asked, some b)
  | none =>
    match ans.ts with
    | .cancelled => (asked ++ [Prompt.ts], none)
    | .value t => (asked ++ [Prompt.ts], some t)

/-- Line 73: `['react', 'vue', 'empty'].includes(args.framework) ? args.framework : undefined`. -/
def knownFramework (args : Args) : Option Str :=
  match args.framework with
  | some f => if frameworks.contains f then some f else none
  | none => none

/-- Lines 111-125: the framework is asked for when `!framework`; an empty answer gives
`react`. -/
def askFramework (args : Args) (ans : Answers) (asked : List Prompt) :
    List Prompt × Option Str :=
  if unset (knownFramework args) then
    match ans.framework with
    | .cancelled => (asked ++ [Prompt.framework], none)
    | .value f => (asked ++ [Prompt.framework], some (if f.isEmpty then "react".toList else f))
  else (asked, knownFramework args)

/-- Lines 127-137: the title is asked for when `!title`; an empty answer gives the title
derived from the name. -/
def askTitle (js : StringOps) (args : Args) (ans : Answers) (asked : List Prompt) (name : Str) :
    List Prompt × Option Str :=
  if unset args.title then
    match ans.title with
    | .cancelled => (asked ++ [Prompt.title], none)
    | .value t => (asked ++ [Prompt.title], some (if t.isEmpty then toDisplayTitle js name else t))
  else (asked, args.title)

/-- Lines 139-150: `tailwind` is asked for when it is not a boolean of the command line. -/
def askTailwind (args : Args) (ans : Answers) (asked : List Prompt) :
    List Prompt × Option Bool :=
  match args.tailwind with
  | some b => (asked, some b)
  | none =>
    match ans.tailwind with
    | .cancelled => (asked ++ [Prompt.tailwind], none)
    | .value tw => (asked ++ [Prompt.tailwind], some tw)

/-- Lines 71-150 of `main`: the questions asked, in order, and the resolved choices, or `none`
when the process exits with code 1 (`process.exit(1)` at line 79 or 95). -/
def mainResolve (js : StringOps) (args : Args) (ans : Answers) :
    List Prompt × Option Configuration :=
  match askName args ans with
  | (asked, none) => (asked, none)
  | (asked, some name) =>
    if !isValidPkgName name then (asked, none)
    else
      match askTs args ans asked with
      | (asked, none) => (asked, none)
      | (asked, some ts) =>
        match askFramework args ans asked with
        | (asked, none) => (asked, none)
        | (asked, some framework) =>
          match askTitle js args ans asked name with
          | (asked, none) => (asked, none)
          | (asked, some title) =>
            match askTailwind args ans asked with
            | (asked, none) => (asked, none)
            | (asked, some tailwind) =>
              (asked, some
                { name := name, ts := ts, framework := framework, uiEntry := "index.html".toList,
                  tailwind := tailwind, title := title })

/-- What `main` reads from its environment. -/
structure World where
  /-- The answers of the user. -/
  answers : Answers
  /-- The function `path.resolve(cwd, ·)`. -/
  resolve : Str → Str
  /-- The state of the filesystem at a path when `main` starts. -/
  stat : Str → PathState
  /-- The directory `templates/common`, if it exists. -/
  common : Option (List Entry)
  /-- The directory `templates/<framework>/<ts|js>`, if it exists. -/
  variant : Str → Bool → Option (List Entry)
  /-- The function `obj => JSON.stringify(obj, null, 2) + os.EOL`. -/
  stringify : Manifest → Str

/-- The observable behaviour of a run of `main`: the questions asked, the filesystem
mutations that the run issues when none of them is rejected (see `execOps` for their effect and
their rejection), and the exit code of such a run. -/
structure Run where
  prompts : List Prompt
  ops : List Op
  exitCode : Nat

/-- The segments of an absolute path string such as the result of `path.resolve`. -/
def pathOf (s : Str) : Path := joinPath [] s

/-- `main()`, with the handler `main().catch(..)` of lines 287-290. -/
def main (js : StringOps) (w : World) (argv : List Str) : Run :=
  let args := parseArgs js argv
  match mainResolve js args w.answers with
  | (asked, none) => { prompts := asked, ops := [], exitCode := 1 }
  | (asked, some c) =>
    let targetDir := w.resolve c.name
    match ensureDirEmpty targetDir (w.stat targetDir) with
    | .error _ => { prompts := asked, ops := [], exitCode := 1 }
    | .ok _ =>
      { prompts := asked
        ops := [Op.mkdir (pathOf targetDir),
            Op.writeFile (joinPath (pathOf targetDir) "package.json".toList)
              (w.stringify (buildPackageJSON c))]
          ++ copyDir (replacements c) w.common (pathOf targetDir)
          ++ copyDir (replacements c) (w.variant c.framework c.ts) (pathOf targetDir)
        exitCode := 0 }

/-! ## Specification-side definitions -/

/-- Spec: the characters of the package-name grammar, with letters of either case. -/
def pkgAlphabet : Str :=
  "abcdefghijklmnopqrstuvwxyzABCDEFGHIJKLMNOPQRSTUVWXYZ0123456789-._~".toList

/-- Spec: the characters that may begin a scope or a name. -/
def pkgStartAlphabet : Str :=
  "abcdefghijklmnopqrstuvwxyzABCDEFGHIJKLMNOPQRSTUVWXYZ0123456789-~".toList

/-- Spec: a scope or a name of the package-name grammar: non-empty, over `pkgAlphabet`,
beginning with a character of `pkgStartAlphabet`. -/
def PkgSegment (s : Str) : Prop :=
  ∃ c cs, s = c :: cs ∧ c ∈ pkgStartAlphabet ∧ ∀ d ∈ cs, d ∈ pkgAlphabet

/-- Spec: the three framework variants. -/
inductive Framework where
  | react | vue | empty
deriving DecidableEq, Repr

/-- Spec: the framework value of a variant. -/
def Framework.value : Framework → Str
  | .react => "react".toList
  | .vue => "vue".toList
  | .empty => "empty".toList

/-- Spec: the table F of runtime dependencies of a framework. -/
def depsF : Framework → List String
  | .react => ["react", "react-dom"]
  | .vue => ["vue"]
  | .empty => []

/-- Spec: the table T of dependencies of the styling option. -/
def depsT : Bool → List String
  | true => ["tailwindcss", "@tailwindcss/vite"]
  | false => []

/-- Spec: the table P of build-tool plugins of a framework. -/
def depsP : Framework → List String
  | .react => ["@vitejs/plugin-react"]
  | .vue => ["@vitejs/plugin-vue"]
  | .empty => []

/-- Spec: the table C of compiler and type-declaration packages. -/
def depsC : Framework → Bool → List String
  | .react, true => ["typescript", "@types/react", "@types/react-dom"]
  | .vue, true => ["typescript"]
  | .empty, true => ["typescript"]
  | _, false => []

/-- Spec: the one version string of each package. -/
def pinnedVersion (key : String) : String :=
  if key = "vite" then "^7.1.6"
  else if key = "react" then "^19.1.1"
  else if key = "react-dom" then "^19.1.1"
  else if key = "@vitejs/plugin-react" then "^5.0.3"
  else if key = "tailwindcss" then "^4.1.10"
  else if key = "@tailwindcss/vite" then "^4.1.10"
  else if key = "typescript" then "^5.9.2"
  else if key = "@types/react" then "^19.1.13"
  else if key = "@types/react-dom" then "^19.1.9"
  else if key = "vue" then "^3.5.12"
  else if key = "@vitejs/plugin-vue" then "^5.1.4"
  else ""

/-- Spec: `rest` is `name` with a leading `@scope/` prefix removed (an `@`, one or more
characters other than `/`, then `/`), or `name` itself when it has no such prefix. -/
def ScopeRemoved (name rest : Str) : Prop :=
  (∃ scope, scope ≠ [] ∧ '/' ∉ scope ∧ name = '@' :: scope ++ '/' :: rest) ∨
  ((¬ ∃ scope tail, scope ≠ [] ∧ '/' ∉ scope ∧ name = '@' :: scope ++ '/' :: tail) ∧
    rest = name)

/-- Spec: `segs` are the segments of `s` between maximal runs of separator characters, empty
segments discarded: `s` is a run of separators, then a non-empty separator-free segment that
ends at the end of `s` or at a separator, then the remainder with its own segments. -/
inductive Segmented : Str → List Str → Prop
  | done (seps : Str) (hseps : ∀ c ∈ seps, isSplitChar c = true) : Segmented seps []
  | seg (seps seg rest : Str) (segs : List Str)
      (hseps : ∀ c ∈ seps, isSplitChar c = true)
      (hne : seg ≠ []) (hseg : ∀ c ∈ seg, isSplitChar c = false)
      (hmax : ∀ c ∈ rest.head?, isSplitChar c = true)
      (hrest : Segmented rest segs) : Segmented (seps ++ seg ++ rest) (seg :: segs)

/-- The shape of a title: it is empty or begins and ends with a character that is not a
separator, it has no two adjacent spaces, and each of its characters is a space or not a
separator. -/
def TitleShape (t : Str) : Prop :=
  (∀ c ∈ t.head?, isSplitChar c = false) ∧ (∀ c ∈ t.getLast?, isSplitChar c = false) ∧
  List.Chain' (fun a b => ¬ (a = ' ' ∧ b = ' ')) t ∧
  ∀ c ∈ t, c = ' ' ∨ isSplitChar c = false

mutual
/-- Spec: the output of one entry of a template tree below the destination directory `dest`:
for a regular file its output path (the `.tpl` marker stripped) with the substituted text when
the source name ends in `.tpl` and the verbatim content otherwise; a directory contributes the
outputs of its entries below the directory of its own name. -/
def entryOutputs (replacements : List (Str × Str)) (dest : Path) : Entry → List (Path × Str)
  | .dir name entries => entriesOutputs replacements (joinPath dest name) entries
  | .file name content =>
    [(joinPath dest (destName name),
      if isTpl name then substitute replacements content else content)]
  | .other _ => []
/-- Spec: the outputs of the entries of a directory, in listing order. -/
def entriesOutputs (replacements : List (Str × Str)) (dest : Path) :
    List Entry → List (Path × Str)
  | [] => []
  | it :: rest => entryOutputs replacements dest it ++ entriesOutputs replacements dest rest
end

/-- Spec: the outputs of a template layer copied to `dest` (none when the layer does not
exist). -/
def layerOutputs (replacements : List (Str × Str)) (src : Option (List Entry)) (dest : Path) :
    List (Path × Str) :=
  match src with
  | none => []
  | some entries => entriesOutputs replacements dest entries

mutual
/-- Spec: no directory of the entry, at any depth, has a name that ends in `.tpl`. -/
def noTplDir : Entry → Bool
  | .dir name entries => !isTpl name && noTplDirs entries
  | .file _ _ => true
  | .other _ => true
/-- Spec: no directory of the listing, at any depth, has a name that ends in `.tpl`. -/
def noTplDirs : List Entry → Bool
  | [] => true
  | it :: rest => noTplDir it && noTplDirs rest
end

/-- Spec: no directory of the layer has a name that ends in `.tpl`. -/
def layerNoTplDirs (src : Option (List Entry)) : Bool :=
  match src with
  | none => true
  | some entries => noTplDirs entries

/-- Spec: the content of the last output at path `p`, if any output has that path. -/
def lastOutput : List (Path × Str) → Path → Option Str
  | [], _ => none
  | (q, content) :: rest, p =>
    match lastOutput rest p with
    | some later => some later
    | none => if p = q then some content else none

/-- The files written by a sequence of mutations, with their content, in order. -/
def writesOf : List Op → List (Path × Str)
  | [] => []
  | .mkdir _ :: ops => writesOf ops
  | .writeFile p content :: ops => (p, content) :: writesOf ops
  | .copyFile p content :: ops => (p, content) :: writesOf ops

/-- Spec: a filesystem that holds the root directory and nothing else. -/
def rootOnly : FS := fun p => if p.isEmpty then some .dir else none

/-- Spec: a piece of a template text: a literal stretch or an occurrence of a token. -/
inductive Piece where
  | lit (s : Str)
  | tok (k : Str)
deriving DecidableEq, Repr

/-- Spec: the template text that a list of pieces stands for. -/
def flatten : List Piece → Str
  | [] => []
  | .lit s :: ps => s ++ flatten ps
  | .tok k :: ps => k ++ flatten ps

/-- Spec: the text in which each token occurrence is replaced once by the value that the table
gives to the token, everything else unchanged; the values are not scanned. -/
def fill (table : List (Str × Str)) : List Piece → Str
  | [] => []
  | .lit s :: ps => s ++ fill table ps
  | .tok k :: ps =>
    (match table.lookup k with
      | some v => v
      | none => k) ++ fill table ps

/-- Spec: the tokens of the table of `main`. -/
def tokens : List Str :=
  ["__EXT__".toList, "__PKG_NAME__".toList, "__DISPLAY_NAME__".toList, "__UI_ENTRY__".toList,
   "__FRAMEWORK__".toList, "__TAILWIND_IMPORT__".toList, "__TAILWIND_PLUGIN_TRAILING__".toList,
   "__TAILWIND_PLUGIN_SOLO__".toList]

/-- Spec: the characters that tokens are made of: `_` and the uppercase ASCII letters. -/
def isTokenChar (c : Char) : Bool := c == '_' || c.isUpper

/-- Spec: a template in which token occurrences are delimited: a literal stretch holds no `_`,
and a token occurrence is a token of the table that ends the text or is followed by a literal
stretch beginning with a character other than `_` and the uppercase letters. -/
def wellFormed : List Piece → Bool
  | [] => true
  | .lit s :: ps => !s.contains '_' && wellFormed ps
  | .tok k :: ps =>
    tokens.contains k &&
    (match ps with
      | [] => true
      | .lit (c :: _) :: _ => !isTokenChar c
      | _ => false) &&
    wellFormed ps

/-! ## Theorems: `isValidPkgName` -/

theorem char_mem_of_toNat_range (c : Char) (l : Str) (lo hi : Nat)
    (hl : ∀ n, lo ≤ n → n ≤ hi → Char.ofNat n ∈ l) (h1 : lo ≤ c.toNat) (h2 : c.toNat ≤ hi) :
    c ∈ l := by
  have := hl c.toNat h1 h2
  rwa [Char.ofNat_toNat] at this

theorem isNameChar_iff (c : Char) : isNameChar c = true ↔ c ∈ pkgAlphabet := by
  constructor
  · intro h
    simp only [isNameChar, isAsciiLetter, isAsciiDigit, Bool.or_eq_true, Bool.and_eq_true,
      decide_eq_true_eq, beq_iff_eq] at h
    rcases h with (((((⟨h1, h2⟩ | ⟨h1, h2⟩) | ⟨h1, h2⟩) | h) | h) | h) | h
    · exact char_mem_of_toNat_range c _ 97 122 (by intro n a b; interval_cases n <;> decide) h1 h2
    · exact char_mem_of_toNat_range c _ 65 90 (by intro n a b; interval_cases n <;> decide) h1 h2
    · exact char_mem_of_toNat_range c _ 48 57 (by intro n a b; interval_cases n <;> decide) h1 h2
    all_goals (subst h; decide)
  · intro h
    revert c
    decide

theorem isNameStart_iff (c : Char) : isNameStart c = true ↔ c ∈ pkgStartAlphabet := by
  constructor
  · intro h
    simp only [isNameStart, isAsciiLetter, isAsciiDigit, Bool.or_eq_true, Bool.and_eq_true,
      decide_eq_true_eq, beq_iff_eq] at h
    rcases h with (((⟨h1, h2⟩ | ⟨h1, h2⟩) | ⟨h1, h2⟩) | h) | h
    · exact char_mem_of_toNat_range c _ 97 122 (by intro n a b; interval_cases n <;> decide) h1 h2
    · exact char_mem_of_toNat_range c _ 65 90 (by intro n a b; interval_cases n <;> decide) h1 h2
    · exact char_mem_of_toNat_range c _ 48 57 (by intro n a b; interval_cases n <;> decide) h1 h2
    all_goals (subst h; decide)
  · intro h
    revert c
    decide

theorem matchNameRest_iff (s : Str) : matchNameRest s = true ↔ ∀ c ∈ s, c ∈ pkgAlphabet := by
  induction s with
  | nil => simp [matchNameRest]
  | cons c cs ih => simp [matchNameRest, ih, isNameChar_iff]

theorem matchBareName_iff (s : Str) : matchBareName s = true ↔ PkgSegment s := by
  cases s with
  | nil => simp [matchBareName, PkgSegment]
  | cons c cs =>
    simp only [matchBareName, PkgSegment, matchNameRest_iff, isNameStart_iff, Bool.and_eq_true]
    constructor
    · rintro ⟨h1, h2⟩
      exact ⟨c, cs, rfl, h1, h2⟩
    · rintro ⟨c', cs', h, h1, h2⟩
      simp only [List.cons.injEq] at h
      obtain ⟨rfl, rfl⟩ := h
      exact ⟨h1, h2⟩

theorem matchScopeRest_iff (s : Str) :
    matchScopeRest s = true ↔
      ∃ pre rest, s = pre ++ '/' :: rest ∧ (∀ c ∈ pre, c ∈ pkgAlphabet) ∧ PkgSegment rest := by
  induction s with
  | nil => simp [matchScopeRest]
  | cons c cs ih =>
    simp only [matchScopeRest, Bool.or_eq_true, Bool.and_eq_true, ih, isNameChar_iff,
      matchBareName_iff, beq_iff_eq]
    constructor
    · rintro (⟨hc, pre, rest, rfl, hpre, hrest⟩ | ⟨rfl, hrest⟩)
      · exact ⟨c :: pre, rest, rfl, by simpa [hc] using hpre, hrest⟩
      · exact ⟨[], cs, rfl, by simp, hrest⟩
    · rintro ⟨pre, rest, h, hpre, hrest⟩
      cases pre with
      | nil =>
        simp only [List.nil_append, List.cons.injEq] at h
        obtain ⟨rfl, rfl⟩ := h
        exact Or.inr ⟨rfl, hrest⟩
      | cons p pre =>
        simp only [List.cons_append, List.cons.injEq] at h
        obtain ⟨rfl, rfl⟩ := h
        exact Or.inl ⟨hpre _ (by simp), pre, rest, rfl, fun d hd => hpre d (by simp [hd]), hrest⟩

theorem matchScoped_iff (s : Str) :
    matchScoped s = true ↔
      ∃ scope rest, s = '@' :: scope ++ '/' :: rest ∧ PkgSegment scope ∧ PkgSegment rest := by
  constructor
  · intro h
    match s, h with
    | c :: d :: cs, h =>
      simp only [matchScoped, Bool.and_eq_true, beq_iff_eq, isNameStart_iff,
        matchScopeRest_iff] at h
      obtain ⟨⟨rfl, hd⟩, pre, rest, rfl, hpre, hrest⟩ := h
      exact ⟨d :: pre, rest, rfl, ⟨d, pre, rfl, hd, hpre⟩, hrest⟩
  · rintro ⟨scope, rest, rfl, ⟨d, pre, rfl, hd, hpre⟩, hrest⟩
    simp only [List.cons_append, matchScoped, Bool.and_eq_true, beq_iff_eq, isNameStart_iff,
      matchScopeRest_iff]
    exact ⟨⟨trivial, hd⟩, pre, rest, rfl, hpre, hrest⟩

theorem isValidPkgName_iff (name : Str) :
    isValidPkgName name = true ↔
      PkgSegment name ∨
      ∃ scope rest, name = '@' :: scope ++ '/' :: rest ∧ PkgSegment scope ∧ PkgSegment rest := by
  simp only [isValidPkgName, Bool.or_eq_true, matchScoped_iff, matchBareName_iff]
  exact Or.comm

theorem pkgStartAlphabet_subset (c : Char) (h : c ∈ pkgStartAlphabet) : c ∈ pkgAlphabet := by
  revert c; decide

theorem PkgSegment.ne_nil {s : Str} (h : PkgSegment s) : s ≠ [] := by
  obtain ⟨c, cs, rfl, -, -⟩ := h
  simp

theorem PkgSegment.mem_alphabet {s : Str} (h : PkgSegment s) : ∀ c ∈ s, c ∈ pkgAlphabet := by
  obtain ⟨c, cs, rfl, hc, hcs⟩ := h
  intro d hd
  rcases List.mem_cons.1 hd with rfl | hd
  · exact pkgStartAlphabet_subset _ hc
  · exact hcs d hd

theorem isValidPkgName_chars {name : Str} (h : isValidPkgName name = true) :
    name ≠ [] ∧ ∀ c ∈ name, c ∈ pkgAlphabet ∨ c = '@' ∨ c = '/' := by
  rcases (isValidPkgName_iff name).1 h with h | ⟨scope, rest, rfl, hs, hr⟩
  · exact ⟨h.ne_nil, fun c hc => Or.inl (h.mem_alphabet c hc)⟩
  · refine ⟨by simp, fun c hc => ?_⟩
    simp only [List.cons_append, List.mem_cons, List.mem_append] at hc
    rcases hc with rfl | hc | rfl | hc
    · exact Or.inr (Or.inl rfl)
    · exact Or.inl (hs.mem_alphabet c hc)
    · exact Or.inr (Or.inr rfl)
    · exact Or.inl (hr.mem_alphabet c hc)

theorem isWhiteSpace_not_pkgAlphabet (c : Char) (h : c ∈ pkgAlphabet) : isWhiteSpace c = false := by
  revert c; decide

/-- C8 (counterexample): the name `MyPlugin` is accepted although it contains the uppercase
letters `M` and `P`. -/
theorem isValidPkgName_accepts_uppercase :
    isValidPkgName "MyPlugin".toList = true ∧ 'M' ∈ "MyPlugin".toList ∧ 'M'.isUpper = true := by
  decide

/-- C8 (amended): a string is accepted by `isValidPkgName` exactly when it has the form
`(@scope/)?name` in which scope and name are non-empty, consist only of ASCII letters of either
case, digits and the characters `-`, `.`, `_`, `~`, and do not begin with `.` or `_`. -/
theorem isValidPkgName_grammar (name : Str) :
    isValidPkgName name = true ↔
      PkgSegment name ∨
      ∃ scope rest, name = '@' :: scope ++ '/' :: rest ∧ PkgSegment scope ∧ PkgSegment rest :=
  isValidPkgName_iff name

/-- C3 (counterexample): `isValidPkgName` accepts `-leading`, a name that begins with `-`. -/
theorem isValidPkgName_accepts_leading_dash :
    isValidPkgName "-leading".toList = true ∧ "-leading".toList.head? = some '-' := by
  decide

/-- C3 (amended): `isValidPkgName` accepts `my-plugin` and `@scope/name`, rejects `My Plugin`
and the empty string, and rejects every name that is empty or contains white space. -/
theorem isValidPkgName_rejects_empty_and_whitespace :
    isValidPkgName "my-plugin".toList = true ∧ isValidPkgName "@scope/name".toList = true ∧
    isValidPkgName "My Plugin".toList = false ∧ isValidPkgName "".toList = false ∧
    ∀ name : Str, (name = [] ∨ ∃ c ∈ name, isWhiteSpace c = true) →
      isValidPkgName name = false := by
  refine ⟨by decide, by decide, by decide, by decide, ?_⟩
  intro name h
  by_contra hv
  rw [Bool.not_eq_false] at hv
  obtain ⟨hne, hch⟩ := isValidPkgName_chars hv
  rcases h with rfl | ⟨c, hc, hw⟩
  · exact hne rfl
  · rcases hch c hc with h | rfl | rfl
    · rw [isWhiteSpace_not_pkgAlphabet c h] at hw
      exact Bool.noConfusion hw
    · revert hw; decide
    · revert hw; decide

/-- C3 (witness): the rejection rule applied to the name `My Plugin`, which contains a space. -/
theorem isValidPkgName_rejects_empty_and_whitespace_witness :
    (∃ c ∈ "My Plugin".toList, isWhiteSpace c = true) ∧
      isValidPkgName "My Plugin".toList = false :=
  ⟨by decide, isValidPkgName_rejects_empty_and_whitespace.2.2.2.2 _ (Or.inr (by decide))⟩

/-! ## Theorems: `buildPackageJSON` -/

theorem buildPackageJSON_versions (fw : Framework) (ts tailwind : Bool) :
    ∀ kv ∈ (buildPackageJSON ⟨[], ts, fw.value, [], tailwind, []⟩).dependencies ++
        (buildPackageJSON ⟨[], ts, fw.value, [], tailwind, []⟩).devDependencies,
      kv.2 = pinnedVersion kv.1 := by
  cases fw <;> cases ts <;> cases tailwind <;> decide

/-- C5: `buildPackageJSON` equals the dependency table.  For every name, title and each of the
12 combinations of framework, `ts` and `tailwind`: the keys of `dependencies` are
F(framework) followed by T(tailwind); the keys of `devDependencies` are `vite` followed by
P(framework) and C(framework, ts); every key carries its one pinned version; the manifest with
tailwind differs from the one without only by the two tailwind entries appended to
`dependencies`; and the configuration `demo`/ts/react/`Demo`/no tailwind gives the dependencies
`react`, `react-dom`, the devDependencies `vite`, `@vitejs/plugin-react`, `typescript`,
`@types/react`, `@types/react-dom`, and no tailwind key. -/
theorem buildPackageJSON_dependency_table (name title uiEntry : Str) (fw : Framework)
    (ts tailwind : Bool) :
    let build := fun (tw : Bool) => buildPackageJSON
      { name := name, ts := ts, framework := fw.value, uiEntry := uiEntry, tailwind := tw,
        title := title }
    (build tailwind).dependencies.keys = depsF fw ++ depsT tailwind ∧
    (build tailwind).devDependencies.keys = "vite" :: (depsP fw ++ depsC fw ts) ∧
    (∀ kv ∈ (build tailwind).dependencies ++ (build tailwind).devDependencies,
      kv.2 = pinnedVersion kv.1) ∧
    build true = { build false with dependencies := (build false).dependencies ++ tailwindDeps } ∧
    tailwindDeps.keys = ["tailwindcss", "@tailwindcss/vite"] ∧
    (buildPackageJSON ⟨"demo".toList, true, "react".toList, "index.html".toList, false,
        "Demo".toList⟩).dependencies.keys = ["react", "react-dom"] ∧
    (buildPackageJSON ⟨"demo".toList, true, "react".toList, "index.html".toList, false,
        "Demo".toList⟩).devDependencies.keys
      = ["vite", "@vitejs/plugin-react", "typescript", "@types/react", "@types/react-dom"] := by
  intro build
  have hv := buildPackageJSON_versions fw ts tailwind
  cases fw <;> cases ts <;> cases tailwind <;>
    exact ⟨rfl, rfl, hv, rfl, rfl, rfl, rfl⟩

/-! ## Theorems: `ensureDirEmpty` and the order of effects in `main` -/

theorem includes_self_append (sub r : Str) : includes (sub ++ r) sub = true := by
  have h : sub.isPrefixOf (sub ++ r) = true :=
    List.isPrefixOf_iff_prefix.2 (List.prefix_append sub r)
  cases hs : sub ++ r with
  | nil => rw [hs] at h; simp [includes, List.tails, h]
  | cons c cs => rw [hs] at h; simp [includes, List.tails, h]

theorem includes_append_left (p s sub : Str) (h : includes s sub = true) :
    includes (p ++ s) sub = true := by
  induction p with
  | nil => simpa using h
  | cons c p ih =>
    simp only [includes, List.cons_append, List.tails, List.any_cons, Bool.or_eq_true]
    exact Or.inr ih

theorem notEmpty_message (dir : Str) :
    ("Target directory not empty: ".toList ++ dir).isEmpty = false ∧
    includes ("Target directory not empty: ".toList ++ dir) "not empty".toList = true := by
  have h : "Target directory not empty: ".toList
      = "Target directory ".toList ++ ("not empty".toList ++ ": ".toList) := by decide
  constructor
  · rfl
  · rw [h, List.append_assoc, List.append_assoc]
    exact includes_append_left _ _ _ (includes_self_append _ _)

theorem ensureDirEmpty_directory_cons (dir f : Str) (fs : List Str) :
    ensureDirEmpty dir (.directory (f :: fs))
      = .error ("Target directory not empty: ".toList ++ dir) := by
  obtain ⟨h1, h2⟩ := notEmpty_message dir
  unfold ensureDirEmpty
  simp only [List.length_cons, gt_iff_lt, Nat.zero_lt_succ, if_true, h1, h2, Bool.not_false,
    Bool.and_self]

/-- C7: guard correctness.  `ensureDirEmpty(dir)` returns normally when `dir` is absent or is a
directory with no entries, and throws `Target directory not empty: <dir>` when the listing of
`dir` has at least one entry.  In `main` the check precedes every filesystem mutation: a run
whose target directory is not empty issues no mutation and exits with code 1, and a run that
issues a mutation has passed the check and begins with the `mkdir` of the target followed by
the write of `package.json`. -/
theorem ensureDirEmpty_guard (js : StringOps) (w : World) (argv : List Str) (dir : Str) :
    ensureDirEmpty dir .absent = .ok () ∧
    ensureDirEmpty dir (.directory []) = .ok () ∧
    (∀ f fs, ensureDirEmpty dir (.directory (f :: fs))
      = .error ("Target directory not empty: ".toList ++ dir)) ∧
    (∀ asked c f fs, mainResolve js (parseArgs js argv) w.answers = (asked, some c) →
      w.stat (w.resolve c.name) = .directory (f :: fs) →
      (main js w argv).ops = [] ∧ (main js w argv).exitCode = 1) ∧
    ((main js w argv).ops ≠ [] →
      ∃ asked c rest, mainResolve js (parseArgs js argv) w.answers = (asked, some c) ∧
        ensureDirEmpty (w.resolve c.name) (w.stat (w.resolve c.name)) = .ok () ∧
        (main js w argv).ops
          = Op.mkdir (pathOf (w.resolve c.name)) ::
              Op.writeFile (joinPath (pathOf (w.resolve c.name)) "package.json".toList)
                (w.stringify (buildPackageJSON c)) :: rest) := by
  refine ⟨rfl, rfl, fun f fs => ensureDirEmpty_directory_cons dir f fs, ?_, ?_⟩
  · intro asked c f fs hres hstat
    simp [main, hres, hstat, ensureDirEmpty_directory_cons]
  · intro hops
    rcases hres : mainResolve js (parseArgs js argv) w.answers with ⟨asked, _ | c⟩
    · simp [main, hres] at hops
    · cases hens : ensureDirEmpty (w.resolve c.name) (w.stat (w.resolve c.name)) with
      | error e => simp [main, hres, hens] at hops
      | ok u =>
        cases u
        exact ⟨asked, c, copyDir (replacements c) w.common (pathOf (w.resolve c.name)) ++
          copyDir (replacements c) (w.variant c.framework c.ts) (pathOf (w.resolve c.name)),
          rfl, hens, by simp [main, hres, hens]⟩

/-- C7 (witness): a run with all choices given on the command line whose target directory
holds one entry issues no mutation and exits with code 1. -/
theorem ensureDirEmpty_guard_witness :
    (main asciiOps
      { answers := ⟨.cancelled, .cancelled, .cancelled, .cancelled, .cancelled⟩
        resolve := id, stat := fun _ => .directory ["x".toList], common := some [],
        variant := fun _ _ => some [], stringify := fun _ => [] }
      (["node", "bin.js", "demo", "--ts", "-f", "vue", "-t", "Demo", "--tailwind"].map
        String.toList)).ops = [] :=
  ((ensureDirEmpty_guard asciiOps
      { answers := ⟨.cancelled, .cancelled, .cancelled, .cancelled, .cancelled⟩
        resolve := id, stat := fun _ => .directory ["x".toList], common := some [],
        variant := fun _ _ => some [], stringify := fun _ => [] }
      (["node", "bin.js", "demo", "--ts", "-f", "vue", "-t", "Demo", "--tailwind"].map
        String.toList) []).2.2.2.1 []
      ⟨"demo".toList, true, "vue".toList, "index.html".toList, true, "Demo".toList⟩
      "x".toList [] (by decide) rfl).1

/-! ## Theorems: resolution of the choices in `main` -/

theorem askTitle_mem (js : StringOps) (args : Args) (ans : Answers) (asked : List Prompt)
    (name : Str) (p : Prompt) (hp : p ∈ asked) : p ∈ (askTitle js args ans asked name).1 := by
  unfold askTitle
  split
  · cases ans.title <;> simp [hp]
  · exact hp

theorem askTailwind_mem (args : Args) (ans : Answers) (asked : List Prompt)
    (p : Prompt) (hp : p ∈ asked) : p ∈ (askTailwind args ans asked).1 := by
  unfold askTailwind
  cases args.tailwind with
  | some b => exact hp
  | none => cases ans.tailwind <;> simp [hp]

theorem knownFramework_eq_none (args : Args)
    (hfw : ∀ f, args.framework = some f → f ∉ frameworks) : knownFramework args = none := by
  unfold knownFramework
  cases hf : args.framework with
  | none => rfl
  | some f => simp [hfw f hf]

theorem knownFramework_erase (args : Args)
    (hfw : ∀ f, args.framework = some f → f ∉ frameworks) :
    knownFramework args = knownFramework { args with framework := none } := by
  rw [knownFramework_eq_none args hfw]
  rfl

theorem mainResolve_congr_framework (js : StringOps) (args : Args) (ans : Answers)
    (hfw : ∀ f, args.framework = some f → f ∉ frameworks) :
    mainResolve js args ans = mainResolve js { args with framework := none } ans := by
  have h : ∀ asked, askFramework args ans asked
      = askFramework { args with framework := none } ans asked := by
    intro asked
    unfold askFramework
    rw [knownFramework_erase args hfw]
  unfold mainResolve
  simp only [h]
  rfl

theorem mainResolve_framework_asked (js : StringOps) (args : Args) (ans : Answers)
    (hfw : ∀ f, args.framework = some f → f ∉ frameworks)
    (asked : List Prompt) (c : Configuration)
    (h : mainResolve js args ans = (asked, some c)) :
    Prompt.framework ∈ asked ∧
      ∃ f, ans.framework = .value f ∧
        c.framework = if f.isEmpty then "react".toList else f := by
  unfold mainResolve at h
  split at h
  · simp at h
  · rename_i asked1 name hname
    split at h
    · simp at h
    · split at h
      · simp at h
      · rename_i asked2 ts hts
        split at h
        · simp at h
        · rename_i asked3 fw hfwk
          have hmem3 : Prompt.framework ∈ asked3 ∧
              ∃ f, ans.framework = .value f ∧ fw = if f.isEmpty then "react".toList else f := by
            unfold askFramework at hfwk
            rw [knownFramework_eq_none args hfw] at hfwk
            simp only [unset, if_true] at hfwk
            cases hf : ans.framework with
            | cancelled => simp [hf] at hfwk
            | value f =>
              simp only [hf, Prod.mk.injEq, Option.some.injEq] at hfwk
              obtain ⟨rfl, rfl⟩ := hfwk
              exact ⟨by simp, f, rfl, rfl⟩
          split at h
          · simp at h
          · rename_i asked4 title htitle
            have hmem4 : Prompt.framework ∈ asked4 := by
              have := askTitle_mem js args ans asked3 name _ hmem3.1
              rwa [htitle] at this
            split at h
            · simp at h
            · rename_i asked5 tw htw
              have hmem5 : Prompt.framework ∈ asked5 := by
                have := askTailwind_mem args ans asked4 _ hmem4
                rwa [htw] at this
              simp only [Prod.mk.injEq, Option.some.injEq] at h
              obtain ⟨rfl, rfl⟩ := h
              exact ⟨hmem5, hmem3.2⟩

/-- C4 (counterexample): with `--framework svelte` on the command line, `main` does not fail:
it asks the framework question and, on the answer `vue`, scaffolds with framework `vue` and exits
with code 0; on an empty answer it takes `react`.  A `--framework` flag with no following value
is read as the empty string and leads to the same question. -/
theorem main_invalid_framework_is_prompted :
    (parseArgs asciiOps (["node", "bin.js", "demo", "--ts", "--framework", "svelte", "--title",
      "Demo", "--no-tailwind"].map String.toList)).framework = some "svelte".toList ∧
    (main asciiOps
      { answers := ⟨.cancelled, .cancelled, .value "vue".toList, .cancelled, .cancelled⟩
        resolve := id, stat := fun _ => .absent, common := none, variant := fun _ _ => none,
        stringify := fun _ => [] }
      (["node", "bin.js", "demo", "--ts", "--framework", "svelte", "--title", "Demo",
        "--no-tailwind"].map String.toList)).prompts = [Prompt.framework] ∧
    (main asciiOps
      { answers := ⟨.cancelled, .cancelled, .value "vue".toList, .cancelled, .cancelled⟩
        resolve := id, stat := fun _ => .absent, common := none, variant := fun _ _ => none,
        stringify := fun _ => [] }
      (["node", "bin.js", "demo", "--ts", "--framework", "svelte", "--title", "Demo",
        "--no-tailwind"].map String.toList)).exitCode = 0 ∧
    mainResolve asciiOps
      (parseArgs asciiOps (["node", "bin.js", "demo", "--ts", "--framework", "svelte", "--title",
        "Demo", "--no-tailwind"].map String.toList))
      ⟨.cancelled, .cancelled, .value "vue".toList, .cancelled, .cancelled⟩
      = ([Prompt.framework], some ⟨"demo".toList, true, "vue".toList, "index.html".toList, false,
          "Demo".toList⟩) ∧
    mainResolve asciiOps
      (parseArgs asciiOps (["node", "bin.js", "demo", "--ts", "--framework", "svelte", "--title",
        "Demo", "--no-tailwind"].map String.toList))
      ⟨.cancelled, .cancelled, .value [], .cancelled, .cancelled⟩
      = ([Prompt.framework], some ⟨"demo".toList, true, "react".toList, "index.html".toList,
          false, "Demo".toList⟩) ∧
    (parseArgs asciiOps (["node", "bin.js", "demo", "--ts", "--title", "Demo", "--no-tailwind",
      "--framework"].map String.toList)).framework = some [] ∧
    mainResolve asciiOps
      (parseArgs asciiOps (["node", "bin.js", "demo", "--ts", "--title", "Demo", "--no-tailwind",
        "--framework"].map String.toList))
      ⟨.cancelled, .cancelled, .value "vue".toList, .cancelled, .cancelled⟩
      = ([Prompt.framework], some ⟨"demo".toList, true, "vue".toList, "index.html".toList, false,
          "Demo".toList⟩) := by
  decide

/-- C4 (amended): an explicitly supplied framework value outside {react, vue, empty} (also the
value of a `--framework` flag with no following value) is not a validation failure: `main`
treats it as if no framework had been given.  The resolution equals the resolution of the same
arguments without the framework, and whenever it produces a Configuration the framework
question has been asked and the Configuration holds its answer, or `react` when the answer is
empty. -/
theorem mainResolve_invalid_framework (js : StringOps) (argv : List Str) (ans : Answers)
    (x : Str) (hx : (parseArgs js argv).framework = some x) (hinv : x ∉ frameworks) :
    mainResolve js (parseArgs js argv) ans
      = mainResolve js { parseArgs js argv with framework := none } ans ∧
    ∀ asked c, mainResolve js (parseArgs js argv) ans = (asked, some c) →
      Prompt.framework ∈ asked ∧
      ∃ f, ans.framework = .value f ∧
        c.framework = if f.isEmpty then "react".toList else f := by
  have hfw : ∀ f, (parseArgs js argv).framework = some f → f ∉ frameworks := by
    intro f hf
    rw [hx] at hf
    cases hf
    exact hinv
  exact ⟨mainResolve_congr_framework js _ ans hfw,
    fun asked c h => mainResolve_framework_asked js _ ans hfw asked c h⟩

/-- C4 (witness): the amended statement at the arguments `demo --ts --framework svelte --title
Demo --no-tailwind` with the answer `vue`. -/
theorem mainResolve_invalid_framework_witness :
    Prompt.framework ∈ [Prompt.framework] ∧
      ∃ f, (Answer.value "vue".toList : Answer Str) = .value f ∧
        "vue".toList = if f.isEmpty then "react".toList else f :=
  (mainResolve_invalid_framework asciiOps
    (["node", "bin.js", "demo", "--ts", "--framework", "svelte", "--title", "Demo",
      "--no-tailwind"].map String.toList)
    ⟨.cancelled, .cancelled, .value "vue".toList, .cancelled, .cancelled⟩
    "svelte".toList (by decide) (by decide)).2 [Prompt.framework]
    ⟨"demo".toList, true, "vue".toList, "index.html".toList, false, "Demo".toList⟩ (by decide)

/-! ## Theorems: `toDisplayTitle` -/

theorem scopeTail_eq_some {s rest : Str} (h : scopeTail s = some rest) :
    ∃ pre, '/' ∉ pre ∧ s = pre ++ '/' :: rest := by
  induction s with
  | nil => simp [scopeTail] at h
  | cons c cs ih =>
    unfold scopeTail at h
    split at h
    · rename_i hc
      simp only [beq_iff_eq] at hc
      simp only [Option.some.injEq] at h
      subst hc h
      exact ⟨[], by simp, rfl⟩
    · rename_i hc
      simp only [beq_iff_eq] at hc
      obtain ⟨pre, hpre, rfl⟩ := ih h
      refine ⟨c :: pre, ?_, rfl⟩
      simp only [List.mem_cons, not_or]
      exact ⟨fun h => hc h.symm, hpre⟩

theorem scopeTail_eq_none {s : Str} (h : scopeTail s = none) : '/' ∉ s := by
  induction s with
  | nil => simp
  | cons c cs ih =>
    unfold scopeTail at h
    split at h
    · simp at h
    · rename_i hc
      simp only [beq_iff_eq] at hc
      simp only [List.mem_cons, not_or]
      exact ⟨fun h => hc h.symm, ih h⟩

theorem scopeTail_append {pre rest : Str} (hpre : '/' ∉ pre) :
    scopeTail (pre ++ '/' :: rest) = some rest := by
  induction pre with
  | nil => simp [scopeTail]
  | cons c cs ih =>
    simp only [List.mem_cons, not_or] at hpre
    have hc : (c == '/') = false := by
      simp only [beq_eq_false_iff_ne, ne_eq]
      exact fun h => hpre.1 h.symm
    simp [scopeTail, hc, ih hpre.2]

theorem stripScope_scoped {scope rest : Str} (hne : scope ≠ []) (hs : '/' ∉ scope) :
    stripScope ('@' :: scope ++ '/' :: rest) = rest := by
  cases scope with
  | nil => exact absurd rfl hne
  | cons d ds =>
    simp only [List.mem_cons, not_or] at hs
    have hd : (d != '/') = true := by
      simp only [bne_iff_ne, ne_eq]
      exact fun h => hs.1 h.symm
    simp [stripScope, hd, scopeTail_append hs.2]

theorem stripScope_removes (name : Str) : ScopeRemoved name (stripScope name) := by
  by_cases h : ∃ scope tail, scope ≠ [] ∧ '/' ∉ scope ∧ name = '@' :: scope ++ '/' :: tail
  · obtain ⟨scope, tail, hne, hs, rfl⟩ := h
    rw [stripScope_scoped hne hs]
    exact Or.inl ⟨scope, hne, hs, rfl⟩
  · refine Or.inr ⟨h, ?_⟩
    match name, h with
    | [], _ => rfl
    | [c], _ => rfl
    | c :: d :: cs, h =>
      simp only [stripScope]
      by_cases hcd : (c == '@' && d != '/') = true
      · rw [if_pos hcd]
        simp only [Bool.and_eq_true, beq_iff_eq, bne_iff_ne, ne_eq] at hcd
        obtain ⟨rfl, hd⟩ := hcd
        cases hst : scopeTail cs with
        | none => rfl
        | some rest =>
          exfalso
          obtain ⟨pre, hpre, rfl⟩ := scopeTail_eq_some hst
          refine h ⟨d :: pre, rest, by simp, ?_, rfl⟩
          simp only [List.mem_cons, not_or]
          exact ⟨fun h => hd h.symm, hpre⟩
      · rw [if_neg hcd]

theorem Segmented.cons_sep {c : Char} {s : Str} {segs : List Str}
    (hc : isSplitChar c = true) (h : Segmented s segs) : Segmented (c :: s) segs := by
  cases h with
  | done seps hseps =>
    refine Segmented.done _ ?_
    intro d hd
    rcases List.mem_cons.1 hd with rfl | hd
    · exact hc
    · exact hseps d hd
  | seg seps seg rest segs hseps hne hseg hmax hrest =>
    have := Segmented.seg (c :: seps) seg rest segs (by
      intro d hd
      rcases List.mem_cons.1 hd with rfl | hd
      · exact hc
      · exact hseps d hd) hne hseg hmax hrest
    simpa using this

theorem splitLoop_filter_inRun (s : Str) :
    (splitLoop s [] true).filter (fun x => !x.isEmpty)
      = (splitLoop s [] false).filter (fun x => !x.isEmpty) := by
  cases s with
  | nil => rfl
  | cons c cs =>
    by_cases hc : isSplitChar c = true
    · simp [splitLoop, hc]
    · simp [splitLoop, hc]

theorem splitLoop_segmented (s cur : Str) (hcur : ∀ c ∈ cur, isSplitChar c = false) :
    Segmented (cur ++ s) ((splitLoop s cur false).filter (fun x => !x.isEmpty)) := by
  induction s generalizing cur with
  | nil =>
    cases cur with
    | nil => exact Segmented.done [] (by simp)
    | cons d ds =>
      have := Segmented.seg [] (d :: ds) [] [] (by simp) (by simp) hcur (by simp)
        (Segmented.done [] (by simp))
      simpa [splitLoop] using this
  | cons c cs ih =>
    by_cases hc : isSplitChar c = true
    · have hrest : Segmented (c :: cs) ((splitLoop cs [] false).filter (fun x => !x.isEmpty)) :=
        Segmented.cons_sep hc (by simpa using ih [] (by simp))
      cases cur with
      | nil =>
        simpa [splitLoop, hc, splitLoop_filter_inRun] using hrest
      | cons d ds =>
        have := Segmented.seg [] (d :: ds) (c :: cs) _ (by simp) (by simp) hcur
          (by simpa using hc) hrest
        simpa [splitLoop, hc, splitLoop_filter_inRun] using this
    · have hc' : isSplitChar c = false := by simpa using hc
      have := ih (cur ++ [c]) (by
        intro d hd
        rcases List.mem_append.1 hd with hd | hd
        · exact hcur d hd
        · simp only [List.mem_singleton] at hd
          subst hd
          exact hc')
      simpa [splitLoop, hc'] using this

theorem split_segmented (s : Str) :
    Segmented s ((split s).filter (fun x => !x.isEmpty)) := by
  simpa [split] using splitLoop_segmented s [] (by simp)

theorem Segmented.segs_spec {s : Str} {segs : List Str} (h : Segmented s segs) :
    ∀ seg ∈ segs, seg ≠ [] ∧ ∀ c ∈ seg, isSplitChar c = false := by
  induction h with
  | done seps hseps => simp
  | seg seps seg rest segs hseps hne hseg hmax hrest ih =>
    intro x hx
    rcases List.mem_cons.1 hx with rfl | hx
    · exact ⟨hne, hseg⟩
    · exact ih x hx

theorem Segmented.nil_iff {s : Str} {segs : List Str} (h : Segmented s segs) :
    segs = [] ↔ ∀ c ∈ s, isSplitChar c = true := by
  cases h with
  | done seps hseps => exact ⟨fun _ => hseps, fun _ => rfl⟩
  | seg seps seg rest segs hseps hne hseg hmax hrest =>
    simp only [reduceCtorEq, false_iff, not_forall]
    cases seg with
    | nil => exact absurd rfl hne
    | cons d ds =>
      refine ⟨d, by simp, ?_⟩
      rw [hseg d (by simp)]
      simp

theorem intercalate_cons_cons (sep w w' : Str) (ws : List Str) :
    sep.intercalate (w :: w' :: ws) = w ++ sep ++ sep.intercalate (w' :: ws) := by
  simp [List.intercalate, List.intersperse]

theorem chain'_of_forall {R : Char → Char → Prop} {l : Str} (h : ∀ a ∈ l, ∀ b, R a b) :
    List.Chain' R l := by
  induction l with
  | nil => exact List.chain'_nil
  | cons a l ih =>
    rw [List.chain'_cons']
    exact ⟨fun b _ => h a (by simp) b, ih fun x hx => h x (by simp [hx])⟩

theorem ne_space_of_not_split {c : Char} (h : isSplitChar c = false) : c ≠ ' ' := by
  rintro rfl
  revert h
  decide

theorem titleShape_word {w : Str} (hw : ∀ c ∈ w, isSplitChar c = false) : TitleShape w := by
  refine ⟨?_, ?_, ?_, fun c hc => Or.inr (hw c hc)⟩
  · intro c hc
    exact hw c (List.mem_of_mem_head? hc)
  · intro c hc
    exact hw c (List.mem_of_mem_getLast? hc)
  · exact chain'_of_forall fun a ha b hab => ne_space_of_not_split (hw a ha) hab.1

theorem titleShape_intercalate (words : List Str)
    (hw : ∀ w ∈ words, w ≠ [] ∧ ∀ c ∈ w, isSplitChar c = false) :
    TitleShape ([' '].intercalate words) ∧ (words ≠ [] → [' '].intercalate words ≠ []) := by
  induction words with
  | nil =>
    have h0 : [' '].intercalate ([] : List Str) = [] := rfl
    rw [h0]
    exact ⟨⟨by simp, by simp, List.chain'_nil, by simp⟩, by simp⟩
  | cons w ws ih =>
    cases ws with
    | nil =>
      have h := hw w (by simp)
      simpa [List.intercalate, List.intersperse] using And.intro (titleShape_word h.2) h.1
    | cons w' ws =>
      obtain ⟨hwne, hwc⟩ := hw w (by simp)
      obtain ⟨⟨hhead, hlast, hchain, hall⟩, hne⟩ := ih fun x hx => hw x (by simp [hx])
      have hne' := hne (by simp)
      rw [intercalate_cons_cons]
      set t := [' '].intercalate (w' :: ws) with ht
      obtain ⟨c, cs, hcs⟩ := List.exists_cons_of_ne_nil hwne
      obtain ⟨d, ds, hds⟩ := List.exists_cons_of_ne_nil hne'
      refine ⟨⟨?_, ?_, ?_, ?_⟩, by simp [hcs]⟩
      · intro x hx
        rw [hcs] at hx
        simp only [List.cons_append, List.head?_cons, Option.mem_def, Option.some.injEq] at hx
        rw [← hx]
        exact hwc c (by simp [hcs])
      · intro x hx
        rw [List.append_assoc, List.getLast?_append, hds] at hx
        rw [hds] at hlast
        simp only [List.singleton_append, List.getLast?_cons_cons] at hx
        cases hl : (d :: ds).getLast? with
        | none => simp at hl
        | some y =>
          rw [hl] at hx
          simp only [Option.or, Option.mem_def, Option.some.injEq] at hx
          rw [← hx]
          exact hlast y hl
      · rw [List.append_assoc, List.chain'_append]
        refine ⟨(titleShape_word hwc).2.2.1, ?_, ?_⟩
        · simp only [List.singleton_append]
          rw [List.chain'_cons']
          refine ⟨?_, hchain⟩
          intro y hy hy'
          exact ne_space_of_not_split (hhead y hy) hy'.2
        · intro x hx y _ hxy
          exact ne_space_of_not_split (hwc x (List.mem_of_mem_getLast? hx)) hxy.1
      · intro x hx
        simp only [List.append_assoc, List.singleton_append, List.mem_append, List.mem_cons] at hx
        rcases hx with hx | rfl | hx
        · exact Or.inr (hwc x hx)
        · exact Or.inl rfl
        · exact hall x hx

theorem capitalize_word (js : StringOps)
    (hup : ∀ c, isSplitChar c = false →
      js.toUpperCase c ≠ [] ∧ ∀ d ∈ js.toUpperCase c, isSplitChar d = false)
    {seg : Str} (hne : seg ≠ []) (hseg : ∀ c ∈ seg, isSplitChar c = false) :
    capitalize js seg ≠ [] ∧ ∀ c ∈ capitalize js seg, isSplitChar c = false := by
  cases seg with
  | nil => exact absurd rfl hne
  | cons c cs =>
    obtain ⟨h1, h2⟩ := hup c (hseg c (by simp))
    refine ⟨by simp [capitalize, h1], ?_⟩
    intro d hd
    simp only [capitalize, List.mem_append] at hd
    rcases hd with hd | hd
    · exact h2 d hd
    · exact hseg d (by simp [hd])

theorem toDisplayTitle_shape (js : StringOps)
    (hup : ∀ c, isSplitChar c = false →
      js.toUpperCase c ≠ [] ∧ ∀ d ∈ js.toUpperCase c, isSplitChar d = false)
    (name : Str) : TitleShape (toDisplayTitle js name) := by
  have hseg := (split_segmented (stripScope name)).segs_spec
  refine (titleShape_intercalate _ ?_).1
  intro w hw
  obtain ⟨seg, hmem, rfl⟩ := List.mem_map.1 hw
  exact capitalize_word js hup (hseg seg hmem).1 (hseg seg hmem).2

/-- C9: title derivation.  For every name, `toDisplayTitle(name)` is obtained by removing a
leading `@scope/` prefix, taking the non-empty segments between maximal runs of `-`, `_`, `.`
and white space, upper-casing the first character of each segment (the rest unchanged) and
joining the results with one space.  When upper-casing a character that is not a separator
gives a non-empty text without separators, the title does not begin or end with a space, has
no two adjacent spaces and contains none of `-`, `_`, `.`.  With the usual upper-casing of
ASCII letters, `my-cool_plugin.thing` gives `My Cool Plugin Thing` and `@scope/demo` gives
`Demo`. -/
theorem toDisplayTitle_derivation (js : StringOps)
    (hup : ∀ c, isSplitChar c = false →
      js.toUpperCase c ≠ [] ∧ ∀ d ∈ js.toUpperCase c, isSplitChar d = false)
    (hascii : ∀ c, c.isLower = true → js.toUpperCase c = [c.toUpper])
    (name : Str) :
    (∃ rest segs, ScopeRemoved name rest ∧ Segmented rest segs ∧
      toDisplayTitle js name = [' '].intercalate (segs.map (capitalize js))) ∧
    (∀ c cs, capitalize js (c :: cs) = js.toUpperCase c ++ cs) ∧
    (toDisplayTitle js name).head? ≠ some ' ' ∧
    (toDisplayTitle js name).getLast? ≠ some ' ' ∧
    List.Chain' (fun a b => ¬ (a = ' ' ∧ b = ' ')) (toDisplayTitle js name) ∧
    '-' ∉ toDisplayTitle js name ∧ '_' ∉ toDisplayTitle js name ∧
    '.' ∉ toDisplayTitle js name ∧
    toDisplayTitle js "my-cool_plugin.thing".toList = "My Cool Plugin Thing".toList ∧
    toDisplayTitle js "@scope/demo".toList = "Demo".toList := by
  obtain ⟨hhead, hlast, hchain, hall⟩ := toDisplayTitle_shape js hup name
  refine ⟨⟨stripScope name, _, stripScope_removes name, split_segmented _, rfl⟩,
    fun _ _ => rfl, ?_, ?_, hchain, ?_, ?_, ?_, ?_, ?_⟩
  · intro h
    exact absurd (hhead _ h) (by decide)
  · intro h
    exact absurd (hlast _ h) (by decide)
  · intro h
    rcases hall _ h with h | h
    · exact absurd h (by decide)
    · exact absurd h (by decide)
  · intro h
    rcases hall _ h with h | h
    · exact absurd h (by decide)
    · exact absurd h (by decide)
  · intro h
    rcases hall _ h with h | h
    · exact absurd h (by decide)
    · exact absurd h (by decide)
  · have h1 : (split (stripScope "my-cool_plugin.thing".toList)).filter (fun s => !s.isEmpty)
        = [['m', 'y'], ['c', 'o', 'o', 'l'], ['p', 'l', 'u', 'g', 'i', 'n'],
           ['t', 'h', 'i', 'n', 'g']] := by decide
    have h2 : toDisplayTitle js "my-cool_plugin.thing".toList = [' '].intercalate
        (((split (stripScope "my-cool_plugin.thing".toList)).filter (fun s => !s.isEmpty)).map
          (capitalize js)) := rfl
    rw [h2, h1]
    simp only [List.map, capitalize, hascii 'm' (by decide),
      hascii 'c' (by decide), hascii 'p' (by decide), hascii 't' (by decide)]
    decide
  · have h1 : (split (stripScope "@scope/demo".toList)).filter (fun s => !s.isEmpty)
        = [['d', 'e', 'm', 'o']] := by decide
    have h2 : toDisplayTitle js "@scope/demo".toList = [' '].intercalate
        (((split (stripScope "@scope/demo".toList)).filter (fun s => !s.isEmpty)).map
          (capitalize js)) := rfl
    rw [h2, h1]
    simp only [List.map, capitalize, hascii 'd' (by decide)]
    decide

theorem isSplitChar_toUpper (c : Char) (h : isSplitChar c = false) :
    isSplitChar c.toUpper = false := by
  unfold Char.toUpper
  simp only []
  split_ifs with hr
  · have hmem := char_mem_of_toNat_range c "abcdefghijklmnopqrstuvwxyz".toList 97 122
      (by intro n a b; interval_cases n <;> decide) hr.1 hr.2
    revert hmem
    generalize c = d
    revert d
    decide
  · exact h

/-- C9 (witness): the derivation theorem for the ASCII upper-casing, at `my-plugin`. -/
theorem toDisplayTitle_derivation_witness :
    toDisplayTitle asciiOps "my-cool_plugin.thing".toList = "My Cool Plugin Thing".toList ∧
    toDisplayTitle asciiOps "@scope/demo".toList = "Demo".toList :=
  (toDisplayTitle_derivation asciiOps
    (by
      intro c hc
      refine ⟨by simp [asciiOps], ?_⟩
      intro d hd
      simp only [asciiOps, List.mem_singleton] at hd
      subst hd
      exact isSplitChar_toUpper c hc)
    (fun c _ => rfl) "my-plugin".toList).2.2.2.2.2.2.2.2

/-! ## Theorems: the derived title of an accepted name -/

theorem mainResolve_some_inv (js : StringOps) (args : Args) (ans : Answers)
    (asked : List Prompt) (c : Configuration)
    (h : mainResolve js args ans = (asked, some c)) :
    ∃ a1 a2 a3 a4, askName args ans = (a1, some c.name) ∧ isValidPkgName c.name = true ∧
      askTs args ans a1 = (a2, some c.ts) ∧ askFramework args ans a2 = (a3, some c.framework) ∧
      askTitle js args ans a3 c.name = (a4, some c.title) ∧
      askTailwind args ans a4 = (asked, some c.tailwind) ∧
      c.uiEntry = "index.html".toList := by
  unfold mainResolve at h
  split at h
  · simp at h
  · rename_i a1 name hname
    split at h
    · simp at h
    · rename_i hvalid
      split at h
      · simp at h
      · rename_i a2 ts hts
        split at h
        · simp at h
        · rename_i a3 fw hfwk
          split at h
          · simp at h
          · rename_i a4 title htitle
            split at h
            · simp at h
            · rename_i a5 tw htw
              simp only [Prod.mk.injEq, Option.some.injEq] at h
              obtain ⟨rfl, rfl⟩ := h
              refine ⟨a1, a2, a3, a4, hname, ?_, hts, hfwk, htitle, htw, rfl⟩
              simpa using hvalid

theorem buildPackageJSON_commands (c : Configuration) :
    (buildPackageJSON c).commands =
      [ { name := "hello".toList
          title := if c.title.isEmpty then "Hello Sofast Extension".toList else c.title
          mode := "view".toList } ] := by
  unfold buildPackageJSON
  simp only []
  split_ifs <;> rfl

theorem intercalate_ne_nil (sep w : Str) (ws : List Str) (hw : w ≠ []) :
    sep.intercalate (w :: ws) ≠ [] := by
  cases ws with
  | nil => simpa [List.intercalate, List.intersperse] using hw
  | cons w' ws =>
    rw [intercalate_cons_cons]
    simp [hw]

theorem toDisplayTitle_eq_nil_iff (js : StringOps) (hup : ∀ c, js.toUpperCase c ≠ [])
    (name : Str) :
    toDisplayTitle js name = [] ↔ ∀ c ∈ stripScope name, isSplitChar c = true := by
  have hseg := split_segmented (stripScope name)
  rw [← hseg.nil_iff]
  unfold toDisplayTitle
  simp only []
  cases hs : (split (stripScope name)).filter (fun s => !s.isEmpty) with
  | nil => simp [List.intercalate]
  | cons w ws =>
    simp only [List.map_cons, reduceCtorEq, iff_false]
    apply intercalate_ne_nil
    have hw := (hseg.segs_spec w (by simp [hs])).1
    obtain ⟨d, ds, rfl⟩ := List.exists_cons_of_ne_nil hw
    simp [capitalize, hup d]

theorem stripScope_pkgSegment {s : Str} (h : PkgSegment s) : stripScope s = s := by
  obtain ⟨c, cs, rfl, hc, -⟩ := h
  have hc' : (c == '@') = false := by
    rw [beq_eq_false_iff_ne]
    rintro rfl
    revert hc
    decide
  cases cs with
  | nil => rfl
  | cons d ds => simp [stripScope, hc']

theorem stripScope_valid {name : Str} (h : isValidPkgName name = true) :
    PkgSegment (stripScope name) := by
  rcases (isValidPkgName_iff name).1 h with h | ⟨scope, rest, rfl, hs, hr⟩
  · rwa [stripScope_pkgSegment h]
  · rw [stripScope_scoped hs.ne_nil]
    · exact hr
    · intro hmem
      have := hs.mem_alphabet _ hmem
      revert this
      decide

theorem isSplitChar_pkgAlphabet (c : Char) (h : c ∈ pkgAlphabet) :
    isSplitChar c = true ↔ (c = '-' ∨ c = '.' ∨ c = '_') := by
  revert c
  decide

theorem toDisplayTitle_ne_nil_iff (js : StringOps) (hup : ∀ c, js.toUpperCase c ≠ [])
    (name : Str) (hvalid : isValidPkgName name = true) :
    toDisplayTitle js name ≠ [] ↔ ∃ c ∈ stripScope name, c ≠ '-' ∧ c ≠ '.' ∧ c ≠ '_' := by
  have hseg := (stripScope_valid hvalid).mem_alphabet
  rw [Ne, toDisplayTitle_eq_nil_iff js hup name]
  constructor
  · intro h
    simp only [not_forall] at h
    obtain ⟨c, hc, hsplit⟩ := h
    refine ⟨c, hc, ?_⟩
    have := (isSplitChar_pkgAlphabet c (hseg c hc)).not.1 hsplit
    simpa [not_or] using this
  · rintro ⟨c, hc, h1, h2, h3⟩ hall
    rcases (isSplitChar_pkgAlphabet c (hseg c hc)).1 (hall c hc) with h | h | h
    · exact h1 h
    · exact h2 h
    · exact h3 h

/-- C10 (counterexample): the name `-` is accepted by `isValidPkgName` and its derived title
is the empty string; with `--name -` and an empty answer to the title question the
Configuration has the empty title, and the command carries the fallback
`Hello Sofast Extension`. -/
theorem derived_title_empty_for_dash :
    isValidPkgName "-".toList = true ∧ toDisplayTitle asciiOps "-".toList = [] ∧
    mainResolve asciiOps
      (parseArgs asciiOps (["node", "bin.js", "--name", "-", "--ts", "-f", "react",
        "--no-tailwind"].map String.toList))
      ⟨.cancelled, .cancelled, .cancelled, .value [], .cancelled⟩
      = ([Prompt.title], some ⟨"-".toList, true, "react".toList, "index.html".toList, false, []⟩) ∧
    (buildPackageJSON ⟨"-".toList, true, "react".toList, "index.html".toList, false, []⟩).commands
      = [⟨"hello".toList, "Hello Sofast Extension".toList, "view".toList⟩] := by
  decide

/-- C10 (amended): for every name accepted by `isValidPkgName`, the derived title
`toDisplayTitle(name)` is non-empty exactly when the name without its scope contains a
character other than `-`, `.`, `_` (upper-casing a character never gives the empty text).
When `main` produces a Configuration, no title was supplied and the answer to the title
question is empty, the name of the Configuration is an accepted name and its title is the title
derived from it; if that name without its scope has a character other than `-`, `.`, `_`, the
title is non-empty and the single command of `buildPackageJSON` carries exactly that title;
otherwise the title is empty and the command carries the fallback `Hello Sofast Extension`. -/
theorem derived_title_nonempty (js : StringOps) (hup : ∀ c, js.toUpperCase c ≠ []) :
    (∀ name, isValidPkgName name = true →
      (toDisplayTitle js name ≠ [] ↔ ∃ c ∈ stripScope name, c ≠ '-' ∧ c ≠ '.' ∧ c ≠ '_')) ∧
    (∀ args ans asked c, mainResolve js args ans = (asked, some c) →
      unset args.title = true → ans.title = .value [] →
      isValidPkgName c.name = true ∧ c.title = toDisplayTitle js c.name ∧
      ((∃ ch ∈ stripScope c.name, ch ≠ '-' ∧ ch ≠ '.' ∧ ch ≠ '_') →
        c.title ≠ [] ∧
        (buildPackageJSON c).commands = [⟨"hello".toList, c.title, "view".toList⟩]) ∧
      ((¬ ∃ ch ∈ stripScope c.name, ch ≠ '-' ∧ ch ≠ '.' ∧ ch ≠ '_') →
        c.title = [] ∧
        (buildPackageJSON c).commands
          = [⟨"hello".toList, "Hello Sofast Extension".toList, "view".toList⟩])) := by
  refine ⟨fun name hv => toDisplayTitle_ne_nil_iff js hup name hv, ?_⟩
  intro args ans asked c hres hunset hans
  obtain ⟨a1, a2, a3, a4, -, hvalid, -, -, htitle, -, -⟩ := mainResolve_some_inv js args ans asked c hres
  have ht : c.title = toDisplayTitle js c.name := by
    unfold askTitle at htitle
    rw [if_pos hunset, hans] at htitle
    simp only [List.isEmpty_nil, if_true, Prod.mk.injEq, Option.some.injEq] at htitle
    exact htitle.2.symm
  refine ⟨hvalid, ht, fun hch => ?_, fun hch => ?_⟩
  · have hne : c.title ≠ [] := by
      rw [ht]
      exact (toDisplayTitle_ne_nil_iff js hup c.name hvalid).2 hch
    refine ⟨hne, ?_⟩
    rw [buildPackageJSON_commands]
    obtain ⟨d, ds, hd⟩ := List.exists_cons_of_ne_nil hne
    simp [hd]
  · have hnil : c.title = [] := by
      rw [ht]
      by_contra hne
      exact hch ((toDisplayTitle_ne_nil_iff js hup c.name hvalid).1 hne)
    refine ⟨hnil, ?_⟩
    rw [buildPackageJSON_commands, hnil]
    rfl

/-- C10 (witness): the amended statement for the ASCII upper-casing at the name `demo`. -/
theorem derived_title_nonempty_witness :
    isValidPkgName "demo".toList = true ∧ toDisplayTitle asciiOps "demo".toList ≠ [] :=
  ⟨by decide, ((derived_title_nonempty asciiOps (by intro c; simp [asciiOps])).1 "demo".toList
    (by decide)).2 ⟨'d', by decide, by decide, by decide, by decide⟩⟩

/-! ## Theorems: `copyDir` and the two template layers -/

theorem writesOf_append (a b : List Op) : writesOf (a ++ b) = writesOf a ++ writesOf b := by
  induction a with
  | nil => rfl
  | cons op a ih => cases op <;> simp [writesOf, ih]

theorem destName_of_not_isTpl (name : Str) (h : isTpl name = false) : destName name = name := by
  simp [destName, h]

mutual
theorem writesOf_copyEntry (replacements : List (Str × Str)) (dest : Path) :
    ∀ it : Entry, noTplDir it = true →
      writesOf (copyEntry replacements dest it) = entryOutputs replacements dest it
  | .dir name entries, h => by
    simp only [noTplDir, Bool.and_eq_true, Bool.not_eq_true'] at h
    simp only [copyEntry, entryOutputs, writesOf, destName_of_not_isTpl name h.1]
    exact writesOf_copyEntries replacements _ entries h.2
  | .file name content, _ => by
    simp only [copyEntry, entryOutputs]
    split <;> rfl
  | .other _, _ => rfl
theorem writesOf_copyEntries (replacements : List (Str × Str)) (dest : Path) :
    ∀ entries : List Entry, noTplDirs entries = true →
      writesOf (copyEntries replacements dest entries) = entriesOutputs replacements dest entries
  | [], _ => rfl
  | it :: rest, h => by
    simp only [noTplDirs, Bool.and_eq_true] at h
    simp only [copyEntries, entriesOutputs, writesOf_append]
    rw [writesOf_copyEntry replacements dest it h.1,
      writesOf_copyEntries replacements dest rest h.2]
end

theorem writesOf_copyDir (replacements : List (Str × Str)) (src : Option (List Entry))
    (dest : Path) (h : layerNoTplDirs src = true) :
    writesOf (copyDir replacements src dest) = layerOutputs replacements src dest := by
  cases src with
  | none => rfl
  | some entries =>
    simp only [copyDir, layerOutputs, writesOf]
    exact writesOf_copyEntries replacements dest entries h

theorem lastOutput_cons (q : Path) (content : Str) (rest : List (Path × Str)) (p : Path) :
    lastOutput ((q, content) :: rest) p
      = (lastOutput rest p).or (if p = q then some content else none) := by
  show (match lastOutput rest p with
    | some later => some later
    | none => if p = q then some content else none) = _
  cases lastOutput rest p <;> rfl

theorem lastOutput_append (a b : List (Path × Str)) (p : Path) :
    lastOutput (a ++ b) p = (lastOutput b p).or (lastOutput a p) := by
  induction a with
  | nil =>
    show lastOutput b p = (lastOutput b p).or none
    cases lastOutput b p <;> rfl
  | cons x a ih =>
    obtain ⟨q, content⟩ := x
    rw [List.cons_append, lastOutput_cons, lastOutput_cons, ih]
    cases lastOutput b p <;> cases lastOutput a p <;> rfl

theorem lastOutput_eq_none {ws : List (Path × Str)} {p : Path}
    (h : p ∉ ws.map Prod.fst) : lastOutput ws p = none := by
  induction ws with
  | nil => rfl
  | cons x ws ih =>
    obtain ⟨q, content⟩ := x
    simp only [List.map_cons, List.mem_cons, not_or] at h
    rw [lastOutput_cons, ih h.2, if_neg h.1]
    rfl

theorem lastOutput_of_nodup {ws : List (Path × Str)} (hnd : (ws.map Prod.fst).Nodup)
    {p : Path} {content : Str} (h : (p, content) ∈ ws) : lastOutput ws p = some content := by
  induction ws with
  | nil => simp at h
  | cons x ws ih =>
    obtain ⟨q, c⟩ := x
    simp only [List.map_cons, List.nodup_cons] at hnd
    rcases List.mem_cons.1 h with h | h
    · simp only [Prod.mk.injEq] at h
      obtain ⟨rfl, rfl⟩ := h
      rw [lastOutput_cons, lastOutput_eq_none hnd.1, if_pos rfl]
      rfl
    · rw [lastOutput_cons, ih hnd.2 h]
      rfl

theorem fileAt_eq_some (fs : FS) (p : Path) (content : Str) :
    fileAt fs p = some content ↔ fs p = some (.file content) := by
  unfold fileAt
  cases h : fs p with
  | none => simp
  | some n => cases n <;> simp

theorem anyFile_eq_false {fs : FS} {l : List Path} (h : anyFile fs l = false) :
    ∀ q ∈ l, fileAt fs q = none := by
  induction l with
  | nil => simp
  | cons x l ih =>
    simp only [anyFile, Bool.or_eq_false_iff] at h
    intro q hq
    rcases List.mem_cons.1 hq with rfl | hq
    · unfold fileAt
      cases hx : fs q with
      | none => rfl
      | some n =>
        cases n with
        | dir => rfl
        | file c => simp [hx] at h
    · exact ih h.2 q hq

theorem fileAt_execMkdir {fs fs1 : FS} {q : Path} (h : execMkdir fs q = .ok fs1) (p : Path) :
    fileAt fs1 p = fileAt fs p := by
  unfold execMkdir at h
  split at h
  · simp at h
  · split at h
    · simp at h
    · rename_i hany
      simp only [Bool.not_eq_true] at hany
      simp only [Except.ok.injEq] at h
      subst h
      by_cases hp : p.isPrefixOf q = true
      · have hmem : p ∈ q.inits := (List.mem_inits _ _).2 (List.isPrefixOf_iff_prefix.1 hp)
        rw [anyFile_eq_false hany p hmem]
        simp [fileAt, hp]
      · simp [fileAt, hp]

theorem fileAt_execWrite {fs fs1 : FS} {q : Path} {content : Str}
    (h : execWrite fs q content = .ok fs1) (p : Path) :
    fileAt fs1 p = if p = q then some content else fileAt fs p := by
  unfold execWrite at h
  split at h
  · simp at h
  · split at h
    · simp at h
    · split at h
      · simp only [Except.ok.injEq] at h
        subst h
        by_cases hp : p = q <;> simp [fileAt, hp]
      · simp at h
      · simp at h

theorem execOps_fileAt (ops : List Op) (fs fs2 : FS) (h : execOps ops fs = .ok fs2)
    (p : Path) : fileAt fs2 p = (lastOutput (writesOf ops) p).or (fileAt fs p) := by
  induction ops generalizing fs with
  | nil =>
    simp only [execOps, Except.ok.injEq] at h
    subst h
    rfl
  | cons op ops ih =>
    unfold execOps at h
    split at h
    · rename_i fs1 hop
      rw [ih fs1 h]
      cases op with
      | mkdir q =>
        rw [fileAt_execMkdir hop]
        rfl
      | writeFile q content =>
        rw [fileAt_execWrite hop]
        simp only [writesOf]
        rw [lastOutput_cons]
        cases lastOutput (writesOf ops) p <;> by_cases hp : p = q <;> simp [hp, Option.or]
      | copyFile q content =>
        rw [fileAt_execWrite hop]
        simp only [writesOf]
        rw [lastOutput_cons]
        cases lastOutput (writesOf ops) p <;> by_cases hp : p = q <;> simp [hp, Option.or]
    · simp at h

theorem execOps_append (a b : List Op) (fs fs2 : FS) (h : execOps (a ++ b) fs = .ok fs2) :
    ∃ fs1, execOps a fs = .ok fs1 ∧ execOps b fs1 = .ok fs2 := by
  induction a generalizing fs with
  | nil => exact ⟨fs, rfl, h⟩
  | cons op a ih =>
    have hcons : ∀ (ops : List Op) (fs : FS), execOps (op :: ops) fs =
        (match execOp fs op with
          | .ok fs1 => execOps ops fs1
          | .error e => .error e) := fun _ _ => rfl
    rw [List.cons_append, hcons] at h
    rw [hcons]
    cases hop : execOp fs op with
    | error e => simp [hop] at h
    | ok fs1 =>
      simp only [hop] at h ⊢
      exact ih fs1 h

/-- The filesystem calls of `copyDir` are rejected where two layers disagree on what a path
is: a file of the variant layer over a directory of the common layer (`EISDIR`), a directory
over a file (`EEXIST`), and a file whose name is just `.tpl`, which is written at the
destination directory itself (`EISDIR`).  A directory named `..tpl` is copied into the
destination directory itself, and a directory named `src.tpl` into `src`. -/
theorem copyDir_collisions :
    (execOps (copyDir [] (some [.dir ['a'] [.file ['b'] ['1']]]) [['t']] ++
        copyDir [] (some [.file ['a'] ['2']]) [['t']]) rootOnly).map
      (fun fs => fs [['t'], ['a']]) = .error .EISDIR ∧
    (execOps (copyDir [] (some [.file ['a'] ['2']]) [['t']] ++
        copyDir [] (some [.dir ['a'] [.file ['b'] ['1']]]) [['t']]) rootOnly).map
      (fun fs => fs [['t'], ['a'], ['b']]) = .error .EEXIST ∧
    (execOps (copyDir [] (some [.file ".tpl".toList ['2']]) [['t']]) rootOnly).map
      (fun fs => fs [['t']]) = .error .EISDIR ∧
    (execOps (copyDir [] (some [.file ['x'] ['1'], .dir "..tpl".toList [.file ['x'] ['2']]])
        [['t']]) rootOnly).map (fun fs => fs [['t'], ['x']]) = .ok (some (.file ['2'])) ∧
    (execOps (copyDir [] (some [.dir "src.tpl".toList [.file "m.js".toList ['2']]])
        [['t']]) rootOnly).map (fun fs => fs [['t'], "src".toList, "m.js".toList])
      = .ok (some (.file ['2'])) :=
  ⟨rfl, rfl, rfl, rfl, rfl⟩

/-- C6 (counterexample): a variant tree that holds both `a.txt.tpl` and `a.txt` produces the
output path `a.txt` twice; both layers are copied without error, and the path then holds the
output of the file listed last, not the output of the other file of the variant tree, in either
listing order. -/
theorem variant_file_output_overwritten :
    (["t".toList, "a.txt".toList], ['X']) ∈
      layerOutputs [] (some [Entry.file "a.txt.tpl".toList ['X'], Entry.file "a.txt".toList ['Y']])
        ["t".toList] ∧
    (execOps (copyDir [] (some []) ["t".toList] ++
        copyDir [] (some [Entry.file "a.txt.tpl".toList ['X'], Entry.file "a.txt".toList ['Y']])
          ["t".toList]) rootOnly).map (fun fs => fs ["t".toList, "a.txt".toList])
      = .ok (some (.file ['Y'])) ∧
    (["t".toList, "a.txt".toList], ['Y']) ∈
      layerOutputs [] (some [Entry.file "a.txt".toList ['Y'], Entry.file "a.txt.tpl".toList ['X']])
        ["t".toList] ∧
    (execOps (copyDir [] (some []) ["t".toList] ++
        copyDir [] (some [Entry.file "a.txt".toList ['Y'], Entry.file "a.txt.tpl".toList ['X']])
          ["t".toList]) rootOnly).map (fun fs => fs ["t".toList, "a.txt".toList])
      = .ok (some (.file ['X'])) :=
  ⟨by decide, rfl, by decide, rfl⟩

/-- C6 (amended): layer overwrite, last writer wins.  Take template trees in which no
directory name ends in `.tpl`, and a run of `copyDir(common, dest)` followed by
`copyDir(variant, dest)` in which no filesystem call is rejected.  Afterwards every path holds
the output of the last file of the variant tree (in traversal order) that produces it, whatever
the common tree produced there; a path that no file of the variant tree produces holds what it
held after the common layer: the output of the last file of the common tree that produces it,
or its former file content.  When the output paths of the variant tree are pairwise distinct,
every output path of a file of the variant tree holds exactly the output of that file (the
substituted text for a source named `<path>.tpl`, the verbatim content otherwise). -/
theorem layers_last_writer_wins (replacements : List (Str × Str))
    (common variant : Option (List Entry)) (dest : Path) (fs fs2 : FS)
    (hrun : execOps (copyDir replacements common dest ++ copyDir replacements variant dest) fs
      = .ok fs2)
    (hcommon : layerNoTplDirs common = true) (hvariant : layerNoTplDirs variant = true) :
    (∀ p, fileAt fs2 p
      = (lastOutput (layerOutputs replacements variant dest) p).or
          ((lastOutput (layerOutputs replacements common dest) p).or (fileAt fs p))) ∧
    (∃ fs1, execOps (copyDir replacements common dest) fs = .ok fs1 ∧
      (∀ p, fileAt fs1 p
        = (lastOutput (layerOutputs replacements common dest) p).or (fileAt fs p)) ∧
      ∀ p, p ∉ (layerOutputs replacements variant dest).map Prod.fst →
        fileAt fs2 p = fileAt fs1 p) ∧
    (((layerOutputs replacements variant dest).map Prod.fst).Nodup →
      ∀ p content, (p, content) ∈ layerOutputs replacements variant dest →
        fs2 p = some (.file content)) ∧
    (∀ name content, layerOutputs replacements (some [Entry.file name content]) dest
      = [(joinPath dest (destName name),
          if isTpl name then substitute replacements content else content)]) := by
  obtain ⟨fs1, h1, h2⟩ := execOps_append _ _ fs fs2 hrun
  have hc : ∀ p, fileAt fs1 p
      = (lastOutput (layerOutputs replacements common dest) p).or (fileAt fs p) := by
    intro p
    rw [execOps_fileAt _ fs fs1 h1, writesOf_copyDir _ _ _ hcommon]
  have hv : ∀ p, fileAt fs2 p
      = (lastOutput (layerOutputs replacements variant dest) p).or (fileAt fs1 p) := by
    intro p
    rw [execOps_fileAt _ fs1 fs2 h2, writesOf_copyDir _ _ _ hvariant]
  refine ⟨fun p => by rw [hv, hc], ⟨fs1, h1, hc, ?_⟩, ?_, ?_⟩
  · intro p hp
    rw [hv, lastOutput_eq_none hp]
    rfl
  · intro hnd p content hmem
    rw [← fileAt_eq_some, hv, lastOutput_of_nodup hnd hmem]
    rfl
  · intro name content
    simp [layerOutputs, entriesOutputs, entryOutputs]

/-- C6 (witness): a common layer with `a.txt.tpl` and a variant layer with `a.txt`, copied to
the directory `t` of a filesystem that holds only its root: no call is rejected, and the
composed destination holds the content of the variant layer at `t/a.txt`. -/
theorem layers_last_writer_wins_witness :
    ∃ fs2, execOps (copyDir [] (some [Entry.file "a.txt.tpl".toList ['X']]) ["t".toList] ++
        copyDir [] (some [Entry.file "a.txt".toList ['Y']]) ["t".toList]) rootOnly = .ok fs2 ∧
      fs2 ["t".toList, "a.txt".toList] = some (.file ['Y']) :=
  ⟨_, rfl, (layers_last_writer_wins [] (some [Entry.file "a.txt.tpl".toList ['X']])
    (some [Entry.file "a.txt".toList ['Y']]) ["t".toList] rootOnly _ rfl rfl rfl).2.2.1
    (by decide) ["t".toList, "a.txt".toList] ['Y'] (by decide)⟩

/-! ## Theorems: token substitution -/

/-- C2 (failing input): the replacement value is not opaque text.  Substituting the title
`A$$B` for `__DISPLAY_NAME__` in `x__DISPLAY_NAME__y` writes `xA$By`, and substituting the
title `$&` writes `x__DISPLAY_NAME__y`; the same holds for the whole substitution loop with the
table that `main` builds for these titles. -/
theorem replaceToken_interprets_dollar :
    replaceToken "__DISPLAY_NAME__".toList "A$$B".toList "x__DISPLAY_NAME__y".toList
      = "xA$By".toList ∧
    replaceToken "__DISPLAY_NAME__".toList "$&".toList "x__DISPLAY_NAME__y".toList
      = "x__DISPLAY_NAME__y".toList ∧
    substitute (replacements ⟨"demo".toList, true, "react".toList, "index.html".toList, false,
      "A$$B".toList⟩) "x__DISPLAY_NAME__y".toList = "xA$By".toList ∧
    substitute (replacements ⟨"demo".toList, true, "react".toList, "index.html".toList, false,
      "$&".toList⟩) "x__DISPLAY_NAME__y".toList = "x__DISPLAY_NAME__y".toList := by
  decide

/-- C1 (counterexample): replacement values are scanned again by the later steps of the loop.
For name `demo`, framework `react` and title `__FRAMEWORK__`, the template text
`__DISPLAY_NAME__` is written as `react`; for the accepted name `a__DISPLAY_NAME__` with title
`T`, the template text `__PKG_NAME__` is written as `aT`. -/
theorem substitute_rescans_values :
    substitute (replacements ⟨"demo".toList, true, "react".toList, "index.html".toList, false,
      "__FRAMEWORK__".toList⟩) "__DISPLAY_NAME__".toList = "react".toList ∧
    isValidPkgName "a__DISPLAY_NAME__".toList = true ∧
    substitute (replacements ⟨"a__DISPLAY_NAME__".toList, true, "react".toList,
      "index.html".toList, false, "T".toList⟩) "__PKG_NAME__".toList = "aT".toList := by
  decide

theorem getSubstitution_plain (matched pre post : Str) (v : Str) (hv : '$' ∉ v) :
    getSubstitution matched pre post v = v := by
  induction v with
  | nil => rfl
  | cons c v ih =>
    simp only [List.mem_cons, not_or] at hv
    have hc : (c == '$') = false := by
      rw [beq_eq_false_iff_ne]
      exact fun h => hv.1 h.symm
    cases v with
    | nil => rfl
    | cons d r =>
      rw [getSubstitution]
      simp only [hc, Bool.false_eq_true, if_false]
      rw [ih hv.2]

theorem replaceLoop_succ_cons (k v pre : Str) (n : Nat) (c : Char) (cs : Str) :
    replaceLoop k v pre (n + 1) (c :: cs) = replaceLoop k v (pre ++ [c]) n cs := rfl

theorem replaceLoop_zero_cons (k v pre : Str) (c : Char) (cs : Str) :
    replaceLoop k v pre 0 (c :: cs) =
      if k.isPrefixOf (c :: cs) then
        getSubstitution k pre ((c :: cs).drop k.length) v ++
          (if k.isEmpty then c :: replaceLoop k v (pre ++ [c]) 0 cs
           else replaceLoop k v (pre ++ [c]) (k.length - 1) cs)
      else c :: replaceLoop k v (pre ++ [c]) 0 cs := rfl

theorem replaceLoop_skip (k v : Str) (u : Str) (pre rest : Str) :
    replaceLoop k v pre u.length (u ++ rest) = replaceLoop k v (pre ++ u) 0 rest := by
  induction u generalizing pre with
  | nil => simp
  | cons c u ih =>
    rw [List.length_cons, List.cons_append, replaceLoop_succ_cons, ih]
    simp

theorem replaceLoop_match (k v : Str) (hk : k ≠ []) (hv : '$' ∉ v) (pre rest : Str) :
    replaceLoop k v pre 0 (k ++ rest) = v ++ replaceLoop k v (pre ++ k) 0 rest := by
  obtain ⟨c, k', rfl⟩ := List.exists_cons_of_ne_nil hk
  have hp : (c :: k').isPrefixOf (c :: (k' ++ rest)) = true :=
    List.isPrefixOf_iff_prefix.2 (List.prefix_append (c :: k') rest)
  rw [List.cons_append, replaceLoop_zero_cons, if_pos hp, getSubstitution_plain _ _ _ v hv]
  simp only [List.isEmpty_cons, Bool.false_eq_true, if_false, List.length_cons,
    Nat.add_sub_cancel]
  rw [replaceLoop_skip]
  simp

theorem replaceLoop_chunk (k v : Str) (u pre rest : Str)
    (h : ∀ i, i < u.length → k.isPrefixOf (u.drop i ++ rest) = false) :
    replaceLoop k v pre 0 (u ++ rest) = u ++ replaceLoop k v (pre ++ u) 0 rest := by
  induction u generalizing pre with
  | nil => simp
  | cons c u ih =>
    have h0 := h 0 (by simp)
    simp only [List.drop_zero, List.cons_append] at h0
    rw [List.cons_append, replaceLoop_zero_cons, h0]
    simp only [Bool.false_eq_true, if_false]
    rw [ih (pre ++ [c]) (fun i hi => by simpa using h (i + 1) (by simpa using hi))]
    simp

theorem includes_of_prefix_drop (k u : Str) (i : Nat) (h : k <+: u.drop i) :
    includes u k = true := by
  simp only [includes, List.any_eq_true]
  exact ⟨u.drop i, (List.mem_tails _ _).2 (List.drop_suffix i u), List.isPrefixOf_iff_prefix.2 h⟩

theorem no_match_in_chunk (k u rest : Str) (hinc : includes u k = false)
    (hk : ∀ c ∈ k, isTokenChar c = true) (hrest : ∀ c ∈ rest.head?, isTokenChar c = false) :
    ∀ i, i < u.length → k.isPrefixOf (u.drop i ++ rest) = false := by
  intro i _
  by_contra hp
  rw [Bool.not_eq_false] at hp
  have hpre : k <+: u.drop i ++ rest := List.isPrefixOf_iff_prefix.1 hp
  have hinc' : ¬ k <+: u.drop i := fun h => by
    rw [includes_of_prefix_drop k u i h] at hinc
    exact Bool.noConfusion hinc
  rcases List.prefix_or_prefix_of_prefix hpre (List.prefix_append _ _) with h | h
  · exact hinc' h
  · obtain ⟨k2, hk2⟩ := h
    rw [← hk2] at hpre
    have h2 : k2 <+: rest := (List.prefix_append_right_inj _).1 hpre
    cases k2 with
    | nil =>
      rw [List.append_nil] at hk2
      exact hinc' (hk2 ▸ List.prefix_refl _)
    | cons d k2 =>
      obtain ⟨r, hr⟩ := h2
      have hd : isTokenChar d = true := hk d (by rw [← hk2]; simp)
      have hd' : isTokenChar d = false := hrest d (by rw [← hr]; simp)
      rw [hd] at hd'
      exact Bool.noConfusion hd'

theorem no_match_in_lit (k s rest : Str) (hk : k.head? = some '_') (hs : '_' ∉ s) :
    ∀ i, i < s.length → k.isPrefixOf (s.drop i ++ rest) = false := by
  intro i hi
  obtain ⟨k', rfl⟩ : ∃ k', k = '_' :: k' := by
    cases k with
    | nil => simp at hk
    | cons c k' =>
      simp only [List.head?_cons, Option.some.injEq] at hk
      exact ⟨k', by rw [hk]⟩
  cases hd : s.drop i with
  | nil =>
    have := List.drop_eq_nil_iff.1 hd
    omega
  | cons c t =>
    have hc : c ∈ s := List.mem_of_mem_drop (by rw [hd]; simp)
    have hne : ('_' == c) = false := by
      rw [beq_eq_false_iff_ne]
      rintro rfl
      exact hs hc
    simp [List.isPrefixOf, hne]

theorem tokens_shape :
    ∀ k ∈ tokens, k ≠ [] ∧ k.head? = some '_' ∧ ∀ c ∈ k, isTokenChar c = true := by
  decide

theorem tokens_not_nested : ∀ k ∈ tokens, ∀ t ∈ tokens, t ≠ k → includes t k = false := by
  decide

theorem fill_head_of_wellFormed (done : List (Str × Str)) (t : Str) (ps : List Piece)
    (hwf : wellFormed (.tok t :: ps) = true) :
    ∀ c ∈ (fill done ps).head?, isTokenChar c = false := by
  simp only [wellFormed, Bool.and_eq_true] at hwf
  obtain ⟨⟨-, hfollow⟩, -⟩ := hwf
  match ps, hfollow with
  | [], _ => simp [fill]
  | .lit (c :: s) :: ps', hfollow =>
    intro d hd
    simp only [fill, List.cons_append, List.head?_cons, Option.mem_def, Option.some.injEq] at hd
    subst hd
    simpa using hfollow

theorem replaceLoop_fill (done : List (Str × Str)) (k v : Str) (ps : List Piece)
    (hk : k ∈ tokens) (hfresh : done.lookup k = none)
    (hdone : ∀ t w, done.lookup t = some w → includes w k = false)
    (hv : '$' ∉ v) (hwf : wellFormed ps = true) (pre : Str) :
    replaceLoop k v pre 0 (fill done ps) = fill (done ++ [(k, v)]) ps := by
  obtain ⟨hne, hhead, hchars⟩ := tokens_shape k hk
  induction ps generalizing pre with
  | nil =>
    cases k with
    | nil => exact absurd rfl hne
    | cons c k' => rfl
  | cons p ps ih =>
    cases p with
    | lit s =>
      simp only [wellFormed, Bool.and_eq_true, Bool.not_eq_true'] at hwf
      have hs : '_' ∉ s := by simpa using hwf.1
      simp only [fill]
      rw [replaceLoop_chunk k v s pre _ (no_match_in_lit k s _ hhead hs), ih hwf.2]
    | tok t =>
      have hrest := fill_head_of_wellFormed done t ps hwf
      simp only [wellFormed, Bool.and_eq_true] at hwf
      obtain ⟨⟨ht0, -⟩, hwf'⟩ := hwf
      have ht : t ∈ tokens := by simpa using ht0
      simp only [fill, List.lookup_append]
      cases hl : done.lookup t with
      | some w =>
        simp only [Option.or]
        rw [replaceLoop_chunk k v w pre _
          (no_match_in_chunk k w _ (hdone t w hl) hchars hrest), ih hwf']
      | none =>
        by_cases htk : t = k
        · subst htk
          simp only [List.lookup, beq_self_eq_true, Option.or]
          rw [replaceLoop_match t v hne hv, ih hwf']
        · have hbeq : (t == k) = false := by
            rw [beq_eq_false_iff_ne]
            exact htk
          simp only [List.lookup, hbeq, Option.or]
          rw [replaceLoop_chunk k v t pre _
            (no_match_in_chunk k t _ (tokens_not_nested k hk t ht htk) hchars hrest), ih hwf']

theorem lookup_eq_none_of_not_mem (l : List (Str × Str)) (k : Str)
    (h : k ∉ l.map Prod.fst) : l.lookup k = none := by
  induction l with
  | nil => rfl
  | cons x l ih =>
    obtain ⟨q, w⟩ := x
    simp only [List.map_cons, List.mem_cons, not_or] at h
    have hb : (k == q) = false := by
      rw [beq_eq_false_iff_ne]
      exact h.1
    simp only [List.lookup, hb]
    exact ih h.2

theorem mem_of_lookup_eq_some (l : List (Str × Str)) (k w : Str)
    (h : l.lookup k = some w) : (k, w) ∈ l := by
  induction l with
  | nil => simp at h
  | cons x l ih =>
    obtain ⟨q, u⟩ := x
    by_cases hb : k = q
    · subst hb
      simp only [List.lookup, beq_self_eq_true, Option.some.injEq] at h
      subst h
      simp
    · have hb' : (k == q) = false := by
        rw [beq_eq_false_iff_ne]
        exact hb
      simp only [List.lookup, hb'] at h
      exact List.mem_cons_of_mem _ (ih h)

theorem fill_nil_table (ps : List Piece) : fill [] ps = flatten ps := by
  induction ps with
  | nil => rfl
  | cons p ps ih =>
    cases p with
    | lit s => simp [fill, flatten, ih]
    | tok k => simp [fill, flatten, ih]

theorem substitute_fill (todo done : List (Str × Str)) (ps : List Piece)
    (hkeys : ∀ kv ∈ todo, kv.1 ∈ tokens)
    (hnd : ((done ++ todo).map Prod.fst).Nodup)
    (hvals : ∀ kv ∈ done ++ todo, '$' ∉ kv.2 ∧ ∀ k ∈ tokens, includes kv.2 k = false)
    (hwf : wellFormed ps = true) :
    substitute todo (fill done ps) = fill (done ++ todo) ps := by
  induction todo generalizing done with
  | nil => simp [substitute]
  | cons kv todo ih =>
    obtain ⟨k, v⟩ := kv
    have hk : k ∈ tokens := hkeys (k, v) (by simp)
    have hfresh : done.lookup k = none := by
      apply lookup_eq_none_of_not_mem
      intro hmem
      rw [List.map_append, List.map_cons] at hnd
      have := (List.nodup_append.1 hnd).2.2
      exact this hmem (by simp)
    have hdone : ∀ t w, done.lookup t = some w → includes w k = false := by
      intro t w hl
      exact (hvals (t, w) (List.mem_append_left _ (mem_of_lookup_eq_some done t w hl))).2 k hk
    have hv : '$' ∉ v := (hvals (k, v) (by simp)).1
    have hstep : substitute ((k, v) :: todo) (fill done ps)
        = substitute todo (replaceToken k v (fill done ps)) := rfl
    rw [hstep, replaceToken, replaceLoop_fill done k v ps hk hfresh hdone hv hwf,
      ih (done ++ [(k, v)]) (fun kv h => hkeys kv (by simp [h])) (by simpa using hnd)
        (by simpa using hvals)]
    simp

/-- The delimiting of token occurrences is needed: the name `N` contains no token and no `$`,
yet in the template text `__DISPLAY___PKG_NAME__AME__` its insertion completes the token
`__DISPLAY_NAME__`, which the next step replaces by the title; and in the text
`__UI_ENTRY__EXT__FRAMEWORK__` the first step takes the overlapping `__EXT__`. -/
theorem substitute_undelimited_tokens :
    substitute (replacements ⟨"N".toList, true, "react".toList, "index.html".toList, false,
      "Demo".toList⟩) "__DISPLAY___PKG_NAME__AME__".toList = "Demo".toList ∧
    substitute (replacements ⟨"demo".toList, true, "react".toList, "index.html".toList, false,
      "Demo".toList⟩) "__UI_ENTRY__EXT__FRAMEWORK__".toList = "__UI_ENTRYtsFRAMEWORK__".toList := by
  decide

theorem replacements_keys (c : Configuration) :
    (replacements c).map Prod.fst = tokens := rfl

theorem replacements_values (c : Configuration)
    (hval : ∀ v ∈ [c.name, c.title, c.uiEntry, c.framework],
      '$' ∉ v ∧ ∀ k ∈ tokens, includes v k = false) :
    ∀ kv ∈ replacements c, '$' ∉ kv.2 ∧ ∀ k ∈ tokens, includes kv.2 k = false := by
  intro kv hkv
  simp only [replacements, List.mem_cons, List.mem_singleton, List.not_mem_nil, or_false] at hkv
  rcases hkv with rfl | rfl | rfl | rfl | rfl | rfl | rfl | rfl
  · cases c.ts <;> decide
  · exact hval c.name (by simp)
  · exact hval c.title (by simp)
  · exact hval c.uiEntry (by simp)
  · exact hval c.framework (by simp)
  · cases c.tailwind <;> decide
  · cases c.tailwind <;> decide
  · cases c.tailwind <;> decide

theorem replaceToken_self (k v : Str) (hk : k ≠ []) (hv : '$' ∉ v) :
    replaceToken k v k = v := by
  have h := replaceLoop_match k v hk hv [] []
  rw [List.append_nil] at h
  rw [replaceToken, h]
  obtain ⟨c, k', rfl⟩ := List.exists_cons_of_ne_nil hk
  simp [replaceLoop]

theorem substitute_pkgName_token (c : Configuration) (h : '$' ∉ c.name) :
    substitute (replacements c) "__PKG_NAME__".toList
      = substitute ((replacements c).drop 2) c.name := by
  have h1 : substitute (replacements c) "__PKG_NAME__".toList
      = substitute ((replacements c).drop 2)
          (replaceToken "__PKG_NAME__".toList c.name "__PKG_NAME__".toList) := rfl
  rw [h1, replaceToken_self _ _ (by decide) h]

theorem substitute_displayName_token (c : Configuration) (h : '$' ∉ c.title) :
    substitute (replacements c) "__DISPLAY_NAME__".toList
      = substitute ((replacements c).drop 3) c.title := by
  have h1 : substitute (replacements c) "__DISPLAY_NAME__".toList
      = substitute ((replacements c).drop 3)
          (replaceToken "__DISPLAY_NAME__".toList c.title "__DISPLAY_NAME__".toList) := rfl
  rw [h1, replaceToken_self _ _ (by decide) h]

/-- C1 (amended): the substitution loop applies one global replacement per token, in table
order, each to the output of the previous one, so a value is scanned again by the later steps:
the template text `__PKG_NAME__` is written as the name with the steps after `__PKG_NAME__`
applied to it, and `__DISPLAY_NAME__` as the title with the steps after `__DISPLAY_NAME__`
applied to it (for values without `$`).  For every Configuration whose name, title, UI entry
and framework contain no `$` and no token, and every template text made of literal stretches
without `_` and of token occurrences that each end the text or are followed by a character other
than `_` and the uppercase letters, the text written by the loop with the table of `main`
equals the template text with each token occurrence replaced once, simultaneously, by its
value. -/
theorem substitute_simultaneous :
    (∀ c : Configuration, '$' ∉ c.name →
      substitute (replacements c) "__PKG_NAME__".toList
        = substitute ((replacements c).drop 2) c.name) ∧
    (∀ c : Configuration, '$' ∉ c.title →
      substitute (replacements c) "__DISPLAY_NAME__".toList
        = substitute ((replacements c).drop 3) c.title) ∧
    (∀ (c : Configuration) (ps : List Piece), wellFormed ps = true →
      (∀ v ∈ [c.name, c.title, c.uiEntry, c.framework],
        '$' ∉ v ∧ ∀ k ∈ tokens, includes v k = false) →
      (replacements c).map Prod.fst = tokens ∧
      substitute (replacements c) (flatten ps) = fill (replacements c) ps) := by
  refine ⟨substitute_pkgName_token, substitute_displayName_token, ?_⟩
  intro c ps hwf hval
  refine ⟨rfl, ?_⟩
  have h := substitute_fill (replacements c) [] ps
    (fun kv hkv => by
      rw [← replacements_keys c]
      exact List.mem_map_of_mem _ hkv)
    (by
      rw [List.nil_append, replacements_keys]
      decide)
    (by simpa using replacements_values c hval) hwf
  rw [fill_nil_table] at h
  simpa using h

/-- C1 (witness): the amended statement for the Configuration `demo` / `Demo Plugin` / `react`
and the template text `name: __PKG_NAME__ (__DISPLAY_NAME__).__EXT__`. -/
theorem substitute_simultaneous_witness :
    substitute (replacements ⟨"demo".toList, true, "react".toList, "index.html".toList, false,
        "Demo Plugin".toList⟩) "name: __PKG_NAME__ (__DISPLAY_NAME__).__EXT__".toList
      = "name: demo (Demo Plugin).ts".toList :=
  (substitute_simultaneous.2.2
    ⟨"demo".toList, true, "react".toList, "index.html".toList, false, "Demo Plugin".toList⟩
    [.lit "name: ".toList, .tok "__PKG_NAME__".toList, .lit " (".toList,
      .tok "__DISPLAY_NAME__".toList, .lit ").".toList, .tok "__EXT__".toList]
    (by decide) (by decide)).2

end Sofast
